import Mathlib

/-!
# Formal model of the TeleComfy admission controller and workflow client

Shallow embedding of the program's core logic:

* `src/app/infra/jobs_queue.py` — the `JobsQueue` admission & scheduling
  controller (pending counters, registry, cancellation, per-topic pools);
* `src/app/comfy/client.py` — `ComfyClient.prepare_workflow` (graph
  templating with pruning) and the event-await / timing logic of
  `submit_and_wait`.

Python `dict`s are modelled as association lists with the unique-key
discipline that `dict` guarantees by construction: lookup finds the first
binding, assignment replaces the first binding in place (or appends a new
one), and `pop` removes the bindings of a key.  Python integers are `Int`;
wall-clock instants are `Int` ticks (the await/timing logic uses only
ordered subtraction and comparison of timestamps); JSON values are the
inductive `JVal`.
-/

namespace TeleComfy

/-! ## Association lists (Python `dict` model) -/

/-- `m.get(k)` — first binding for `k`, if any. -/
def alookup [DecidableEq κ] : List (κ × α) → κ → Option α
  | [], _ => none
  | (k, v) :: rest, key => if k = key then some v else alookup rest key

/-- `m[k] = v` — replace the binding for `k` in place, else append it. -/
def aset [DecidableEq κ] : List (κ × α) → κ → α → List (κ × α)
  | [], key, v => [(key, v)]
  | (k, w) :: rest, key, v =>
      if k = key then (key, v) :: rest else (k, w) :: aset rest key v

/-- `m.pop(k, None)` — drop the bindings of `k`. -/
def apop [DecidableEq κ] (m : List (κ × α)) (key : κ) : List (κ × α) :=
  m.filter (fun p => p.1 ≠ key)

/-- `m.get(k, 0)` for the integer-valued counter maps. -/
def aget [DecidableEq κ] (m : List (κ × Int)) (key : κ) : Int :=
  (alookup m key).getD 0

/-! ## Jobs and the controller state (`jobs_queue.py`)

`GenerateJob` (`src/app/domain/models.py`) is modelled with the fields the
controller logic reads or writes; the payload fields (prompt, params,
images, correlation id, …) are opaque to `JobsQueue` and omitted. -/

structure Job where
  message_id : Int
  user_id : Int
  started : Bool := false
  canceled : Bool := false
  canceled_by_admin : Bool := false
  deriving Repr, DecidableEq

/-- The in-memory state of `JobsQueue`.  The asyncio lock, semaphore and
worker tasks are concurrency scaffolding; the state they guard is here.
`workers` holds the size of each topic's lazily created worker pool. -/
structure JobsQueue where
  registry : List (Int × Job) := []
  pending_by_user : List (Int × Int) := []
  queues : List (String × List Job) := []
  workers : List (String × Nat) := []
  max_workers : Int := 2
  per_topic_limit : Int := 1
  closed : Bool := false
  processorSet : Bool := false
  deriving Repr, DecidableEq

/-- `JobsQueue.__init__`: `self._per_topic_limit = max(1, per_topic_limit)`. -/
def mkJobsQueue (max_workers per_topic_limit : Int) : JobsQueue :=
  { max_workers := max_workers, per_topic_limit := max 1 per_topic_limit }

/-- `_inc_pending`. -/
def incPending (m : List (Int × Int)) (user_id : Int) : List (Int × Int) :=
  if user_id ≤ 0 then m else aset m user_id (aget m user_id + 1)

/-- `_dec_pending`: at count (`cur`) ≤ 1 the entry is popped, never stored
as 0. -/
def decPending (m : List (Int × Int)) (user_id : Int) : List (Int × Int) :=
  if user_id ≤ 0 then m
  else if aget m user_id ≤ 1 then apop m user_id
  else aset m user_id (aget m user_id - 1)

namespace JobsQueue

/-- `_ensure_workers`: spawn `range(self._per_topic_limit)` workers and
`setdefault` the queue, unless a non-empty pool already exists. -/
def ensure_workers (st : JobsQueue) (topic : String) : JobsQueue :=
  if (alookup st.workers topic).getD 0 ≠ 0 then st
  else
    { st with
      queues := if (alookup st.queues topic).isSome then st.queues
                else aset st.queues topic [],
      workers := aset st.workers topic st.per_topic_limit.toNat }

/-- Number of workers in `topic`'s pool. -/
def workerCount (st : JobsQueue) (topic : String) : Nat :=
  (alookup st.workers topic).getD 0

/-- `pending_count_by_user`. -/
def pending_count_by_user (st : JobsQueue) (user_id : Int) : Int :=
  aget st.pending_by_user user_id

/-- `can_enqueue(user_id, per_user_limit)`: read-only check.
`user_id <= 0 or not per_user_limit or per_user_limit <= 0` always allows. -/
def can_enqueue (st : JobsQueue) (user_id : Int) (per_user_limit : Option Int) :
    Bool :=
  if user_id ≤ 0 then true
  else match per_user_limit with
    | none => true
    | some l => if l = 0 then true
                else if l ≤ 0 then true
                else decide (aget st.pending_by_user user_id < l)

/-- `enqueue(topic, job)`: raises (`none`) when closed or no processor. -/
def enqueue (st : JobsQueue) (topic : String) (job : Job) : Option JobsQueue :=
  if st.closed then none
  else if !st.processorSet then none
  else
    let st1 := st.ensure_workers topic
    let st2 := { st1 with registry := aset st1.registry job.message_id job }
    let st3 := if job.user_id ≠ 0 then
                 { st2 with pending_by_user := incPending st2.pending_by_user job.user_id }
               else st2
    some { st3 with
           queues := aset st3.queues topic
             ((alookup st3.queues topic).getD [] ++ [job]) }

/-- `enqueue_limited(topic, job, per_user_limit)`. -/
def enqueue_limited (st : JobsQueue) (topic : String) (job : Job)
    (per_user_limit : Option Int) : Bool × JobsQueue :=
  if st.closed || !st.processorSet then (false, st)
  else
    let st1 := st.ensure_workers topic
    let limited :=
      match per_user_limit with
      | none => false
      | some l => l ≠ 0 && 0 < l && job.user_id ≠ 0 &&
                  l ≤ aget st1.pending_by_user job.user_id
    if limited then (false, st1)
    else
      let st2 := { st1 with registry := aset st1.registry job.message_id job }
      let st3 := if job.user_id ≠ 0 then
                   { st2 with pending_by_user := incPending st2.pending_by_user job.user_id }
                 else st2
      (true, { st3 with
               queues := aset st3.queues topic
                 ((alookup st3.queues topic).getD [] ++ [job]) })

/-- `reserve_user_slot(user_id, per_user_limit)`:
`user_id <= 0 or not per_user_limit or per_user_limit <= 0` rejects. -/
def reserve_user_slot (st : JobsQueue) (user_id : Int)
    (per_user_limit : Option Int) : Bool × JobsQueue :=
  match per_user_limit with
  | none => (false, st)
  | some l =>
      if user_id ≤ 0 || l = 0 || l ≤ 0 then (false, st)
      else if l ≤ aget st.pending_by_user user_id then (false, st)
      else (true, { st with pending_by_user := incPending st.pending_by_user user_id })

/-- `release_user_slot(user_id)`. -/
def release_user_slot (st : JobsQueue) (user_id : Int) : JobsQueue :=
  if user_id ≤ 0 then st
  else { st with pending_by_user := decPending st.pending_by_user user_id }

/-- `enqueue_reserved(topic, job, reserved)`. -/
def enqueue_reserved (st : JobsQueue) (topic : String) (job : Job)
    (reserved : Bool) : Bool × JobsQueue :=
  if st.closed || !st.processorSet then (false, st)
  else
    let st1 := st.ensure_workers topic
    let st2 := { st1 with registry := aset st1.registry job.message_id job }
    let st3 := if job.user_id ≠ 0 && !reserved then
                 { st2 with pending_by_user := incPending st2.pending_by_user job.user_id }
               else st2
    (true, { st3 with
             queues := aset st3.queues topic
               ((alookup st3.queues topic).getD [] ++ [job]) })

/-- `cancel_job(message_id, by_admin)`.  Python mutates the shared job
object, which the registry and the topic queue both reference; the model
updates every holder of that `message_id`. -/
def cancel_job (st : JobsQueue) (message_id : Int) (by_admin : Bool) :
    Bool × JobsQueue :=
  match alookup st.registry message_id with
  | none => (false, st)
  | some job =>
      if job.started then (false, st)
      else if job.canceled then (false, st)
      else
        let job' := { job with canceled := true, canceled_by_admin := by_admin }
        let st1 :=
          { st with
            registry := aset st.registry message_id job',
            queues := st.queues.map (fun p =>
              (p.1, p.2.map (fun j =>
                if j.message_id = message_id then
                  { j with canceled := true, canceled_by_admin := by_admin }
                else j))) }
        if job.user_id ≠ 0 then
          (true, { st1 with pending_by_user := decPending st1.pending_by_user job.user_id })
        else (true, st1)

/-- One dequeue step of `_worker_loop`: skip a canceled job (drop it from
the registry), otherwise decrement the requester's pending counter and mark
the job started.  The processor call and the final registry cleanup happen
after the start transition and do not touch the pending counters. -/
def worker_step (st : JobsQueue) (topic : String) : JobsQueue :=
  match (alookup st.queues topic).getD [] with
  | [] => st
  | job :: rest =>
      let st1 := { st with queues := aset st.queues topic rest }
      if job.canceled then
        { st1 with registry := apop st1.registry job.message_id }
      else
        let st2 := if job.user_id ≠ 0 then
                     { st1 with pending_by_user := decPending st1.pending_by_user job.user_id }
                   else st1
        { st2 with registry := aset st2.registry job.message_id { job with started := true } }

end JobsQueue

/-! ## Association-list lemmas -/

theorem alookup_aset_self [DecidableEq κ] (m : List (κ × α)) (k : κ) (v : α) :
    alookup (aset m k v) k = some v := by
  induction m with
  | nil => simp [aset, alookup]
  | cons p rest ih =>
      obtain ⟨a, b⟩ := p
      by_cases h : a = k
      · simp [aset, alookup, h]
      · simp [aset, alookup, h, ih]

theorem alookup_aset_ne [DecidableEq κ] (m : List (κ × α)) (k k' : κ) (v : α)
    (h : k' ≠ k) : alookup (aset m k v) k' = alookup m k' := by
  induction m with
  | nil => simp [aset, alookup, Ne.symm h]
  | cons p rest ih =>
      obtain ⟨a, b⟩ := p
      by_cases ha : a = k
      · subst ha
        simp [aset, alookup, Ne.symm h]
      · by_cases hb : a = k'
        · simp [aset, alookup, ha, hb, h]
        · simp [aset, alookup, ha, hb, ih]

theorem alookup_apop_self [DecidableEq κ] (m : List (κ × α)) (k : κ) :
    alookup (apop m k) k = none := by
  induction m with
  | nil => simp [apop, alookup]
  | cons p rest ih =>
      obtain ⟨a, b⟩ := p
      by_cases h : a = k
      · simpa [apop, alookup, h] using ih
      · simpa [apop, alookup, h] using ih

theorem mem_aset [DecidableEq κ] {m : List (κ × α)} {k : κ} {v : α} {p : κ × α}
    (h : p ∈ aset m k v) : p = (k, v) ∨ p ∈ m := by
  induction m with
  | nil => simpa [aset] using h
  | cons q rest ih =>
      obtain ⟨a, b⟩ := q
      by_cases ha : a = k
      · simp only [aset, if_pos ha, List.mem_cons] at h
        rcases h with h | h
        · exact Or.inl h
        · exact Or.inr (List.mem_cons_of_mem _ h)
      · simp only [aset, if_neg ha, List.mem_cons] at h
        rcases h with h | h
        · exact Or.inr (by simp [h])
        · rcases ih h with h' | h'
          · exact Or.inl h'
          · exact Or.inr (List.mem_cons_of_mem _ h')

theorem mem_apop [DecidableEq κ] {m : List (κ × α)} {k : κ} {p : κ × α}
    (h : p ∈ apop m k) : p ∈ m := List.mem_of_mem_filter h

theorem alookup_mem [DecidableEq κ] {m : List (κ × α)} {k : κ} {v : α}
    (h : alookup m k = some v) : (k, v) ∈ m := by
  induction m with
  | nil => simp [alookup] at h
  | cons p rest ih =>
      obtain ⟨a, b⟩ := p
      simp only [alookup] at h
      by_cases ha : a = k
      · rw [if_pos ha] at h
        injection h with hv
        subst ha
        subst hv
        exact List.mem_cons_self _ _
      · rw [if_neg ha] at h
        exact List.mem_cons_of_mem _ (ih h)

/-! ## Pending-counter lemmas -/

theorem aget_incPending_self (m : List (Int × Int)) (u : Int) (hu : 0 < u) :
    aget (incPending m u) u = aget m u + 1 := by
  simp [incPending, aget, not_le.mpr hu, alookup_aset_self]

theorem aget_decPending_self (m : List (Int × Int)) (u : Int) (hu : 0 < u) :
    aget (decPending m u) u =
      if aget m u ≤ 1 then 0 else aget m u - 1 := by
  unfold decPending
  rw [if_neg (not_le.mpr hu)]
  by_cases hc : aget m u ≤ 1
  · rw [if_pos hc, if_pos hc]
    simp [aget, alookup_apop_self]
  · rw [if_neg hc, if_neg hc]
    simp [aget, alookup_aset_self]

theorem decPending_removes (m : List (Int × Int)) (u : Int) (hu : 0 < u)
    (h1 : aget m u ≤ 1) : alookup (decPending m u) u = none := by
  simp [decPending, not_le.mpr hu, h1, alookup_apop_self]

/-- The C9 invariant: every stored pending counter is strictly positive. -/
def PendingPositive (m : List (Int × Int)) : Prop := ∀ p ∈ m, 0 < p.2

theorem pendingPositive_aget_nonneg {m : List (Int × Int)} (h : PendingPositive m)
    (u : Int) : 0 ≤ aget m u := by
  unfold aget
  cases hv : alookup m u with
  | none => simp
  | some v => simpa using le_of_lt (h _ (alookup_mem hv))

theorem pendingPositive_incPending {m : List (Int × Int)} (h : PendingPositive m)
    (u : Int) : PendingPositive (incPending m u) := by
  unfold incPending
  split
  · exact h
  · intro p hp
    rcases mem_aset hp with hp | hp
    · subst hp
      have := pendingPositive_aget_nonneg h u
      omega
    · exact h _ hp

theorem pendingPositive_decPending {m : List (Int × Int)} (h : PendingPositive m)
    (u : Int) : PendingPositive (decPending m u) := by
  unfold decPending
  split
  · exact h
  · split
    · intro p hp
      exact h _ (mem_apop hp)
    · intro p hp
      rcases mem_aset hp with hp | hp
      · subst hp
        simp only
        omega
      · exact h _ hp

/-! ## How each controller operation touches the pending map -/

theorem ensure_workers_pending (st : JobsQueue) (topic : String) :
    (st.ensure_workers topic).pending_by_user = st.pending_by_user := by
  unfold JobsQueue.ensure_workers
  split <;> rfl

theorem enqueue_pending {st : JobsQueue} {topic : String} {job : Job}
    {st' : JobsQueue} (h : st.enqueue topic job = some st') :
    st'.pending_by_user = st.pending_by_user ∨
    st'.pending_by_user = incPending st.pending_by_user job.user_id := by
  unfold JobsQueue.enqueue at h
  split at h
  · simp at h
  split at h
  · simp at h
  injection h with h
  subst h
  by_cases hu : job.user_id ≠ 0
  · right
    simp [hu, ensure_workers_pending]
  · left
    simp [hu, ensure_workers_pending]

theorem enqueue_limited_pending (st : JobsQueue) (topic : String) (job : Job)
    (lim : Option Int) :
    (st.enqueue_limited topic job lim).2.pending_by_user = st.pending_by_user ∨
    (st.enqueue_limited topic job lim).2.pending_by_user =
      incPending st.pending_by_user job.user_id := by
  simp only [JobsQueue.enqueue_limited]
  split
  · exact Or.inl rfl
  · split
    · exact Or.inl (ensure_workers_pending st topic)
    · split
      · exact Or.inr (by simp [ensure_workers_pending])
      · exact Or.inl (by simp [ensure_workers_pending])

theorem enqueue_reserved_pending (st : JobsQueue) (topic : String) (job : Job)
    (reserved : Bool) :
    (st.enqueue_reserved topic job reserved).2.pending_by_user = st.pending_by_user ∨
    (st.enqueue_reserved topic job reserved).2.pending_by_user =
      incPending st.pending_by_user job.user_id := by
  simp only [JobsQueue.enqueue_reserved]
  split
  · exact Or.inl rfl
  · split
    · exact Or.inr (by simp [ensure_workers_pending])
    · exact Or.inl (by simp [ensure_workers_pending])

theorem reserve_user_slot_pending (st : JobsQueue) (u : Int) (lim : Option Int) :
    (st.reserve_user_slot u lim).2.pending_by_user = st.pending_by_user ∨
    (st.reserve_user_slot u lim).2.pending_by_user =
      incPending st.pending_by_user u := by
  unfold JobsQueue.reserve_user_slot
  split
  · left; rfl
  split
  · left; rfl
  split
  · left; rfl
  · right; rfl

theorem release_user_slot_pending (st : JobsQueue) (u : Int) :
    (st.release_user_slot u).pending_by_user = st.pending_by_user ∨
    (st.release_user_slot u).pending_by_user =
      decPending st.pending_by_user u := by
  unfold JobsQueue.release_user_slot
  split
  · left; rfl
  · right; rfl

theorem cancel_job_pending (st : JobsQueue) (mid : Int) (b : Bool) :
    ∃ u, (st.cancel_job mid b).2.pending_by_user = st.pending_by_user ∨
      (st.cancel_job mid b).2.pending_by_user = decPending st.pending_by_user u := by
  unfold JobsQueue.cancel_job
  split
  · exact ⟨0, Or.inl rfl⟩
  · rename_i job _
    refine ⟨job.user_id, ?_⟩
    split
    · exact Or.inl rfl
    split
    · exact Or.inl rfl
    split
    · exact Or.inr rfl
    · exact Or.inl rfl

theorem worker_step_pending (st : JobsQueue) (topic : String) :
    ∃ u, (st.worker_step topic).pending_by_user = st.pending_by_user ∨
      (st.worker_step topic).pending_by_user = decPending st.pending_by_user u := by
  unfold JobsQueue.worker_step
  split
  · exact ⟨0, Or.inl rfl⟩
  · rename_i job rest _
    refine ⟨job.user_id, ?_⟩
    split
    · exact Or.inl rfl
    · by_cases hu : job.user_id ≠ 0
      · right
        simp [hu]
      · left
        simp [hu]

/-! ## Claim C1 — `can_enqueue` against the pending counters -/

/-- C1: for a requester `R > 0` and limit `L > 0`, once `R`'s pending
counter holds `L` (as it does after `L` accepted-but-unstarted jobs,
i.e. after `L` `_inc_pending` calls), `can_enqueue(R, L)` returns false;
after one `_dec_pending` (a job of `R` starting or being canceled) it
returns true again; and a non-identified requester (`R ≤ 0`), an absent
limit (`None`), or a non-positive limit always yields true. -/
theorem claim_C1_can_enqueue :
    (∀ (st : JobsQueue) (R L : Int), 0 < R → 0 < L →
        aget st.pending_by_user R = L →
        st.can_enqueue R (some L) = false ∧
        JobsQueue.can_enqueue
          { st with pending_by_user := decPending st.pending_by_user R }
          R (some L) = true) ∧
    (∀ (st : JobsQueue) (R : Int) (lim : Option Int), R ≤ 0 →
        st.can_enqueue R lim = true) ∧
    (∀ (st : JobsQueue) (R : Int), st.can_enqueue R none = true) ∧
    (∀ (st : JobsQueue) (R l : Int), l ≤ 0 →
        st.can_enqueue R (some l) = true) ∧
    (∀ (R : Int) (n : Nat), 0 < R →
        aget ((fun m => incPending m R)^[n] []) R = (n : Int)) := by
  refine ⟨?_, ?_, ?_, ?_, ?_⟩
  · intro st R L hR hL hget
    constructor
    · simp only [JobsQueue.can_enqueue, if_neg (not_le.mpr hR)]
      rw [if_neg hL.ne', if_neg (not_le.mpr hL), hget]
      simp
    · simp only [JobsQueue.can_enqueue, if_neg (not_le.mpr hR)]
      rw [if_neg hL.ne', if_neg (not_le.mpr hL)]
      have hdec := aget_decPending_self st.pending_by_user R hR
      simp only [hget] at hdec
      simp only [hdec]
      split <;> simp <;> omega
  · intro st R lim hR
    simp [JobsQueue.can_enqueue, hR]
  · intro st R
    unfold JobsQueue.can_enqueue
    split <;> rfl
  · intro st R l hl
    unfold JobsQueue.can_enqueue
    split
    · rfl
    · by_cases h0 : l = 0
      · simp [h0]
      · simp [h0, hl]
  · intro R n hR
    induction n with
    | zero => simp [aget, alookup]
    | succ k ih =>
        rw [Function.iterate_succ_apply']
        rw [aget_incPending_self _ _ hR, ih]
        push_cast
        ring

/-- C1 witness: a requester with id 7 at its limit of 2 pending jobs is
rejected, and allowed again after one decrement. -/
theorem claim_C1_witness :
    JobsQueue.can_enqueue { pending_by_user := [(7, 2)] } 7 (some 2) = false ∧
    JobsQueue.can_enqueue
      { pending_by_user := decPending [(7, 2)] 7 } 7 (some 2) = true :=
  claim_C1_can_enqueue.1 { pending_by_user := [(7, 2)] } 7 2
    (by decide) (by decide) (by decide)

/-! ## Claim C9 — positivity of the pending counters -/

/-- C9: every controller operation (`enqueue`, `enqueue_limited`,
`enqueue_reserved`, `reserve_user_slot`, `release_user_slot`,
`cancel_job`, and the worker's dequeue/start step) preserves the
invariant that every entry of `_pending_by_user` is strictly positive;
a counter that would reach 0 is removed from the map instead. -/
theorem claim_C9_pending_invariant (st : JobsQueue)
    (h : PendingPositive st.pending_by_user) :
    (∀ topic job st', st.enqueue topic job = some st' →
        PendingPositive st'.pending_by_user) ∧
    (∀ topic job lim,
        PendingPositive (st.enqueue_limited topic job lim).2.pending_by_user) ∧
    (∀ topic job r,
        PendingPositive (st.enqueue_reserved topic job r).2.pending_by_user) ∧
    (∀ u lim, PendingPositive (st.reserve_user_slot u lim).2.pending_by_user) ∧
    (∀ u, PendingPositive (st.release_user_slot u).pending_by_user) ∧
    (∀ mid b, PendingPositive (st.cancel_job mid b).2.pending_by_user) ∧
    (∀ topic, PendingPositive (st.worker_step topic).pending_by_user) ∧
    (∀ u, 0 < u → aget st.pending_by_user u ≤ 1 →
        alookup (decPending st.pending_by_user u) u = none) := by
  refine ⟨?_, ?_, ?_, ?_, ?_, ?_, ?_, ?_⟩
  · intro topic job st' hst'
    rcases enqueue_pending hst' with hp | hp <;> rw [hp]
    · exact h
    · exact pendingPositive_incPending h _
  · intro topic job lim
    rcases enqueue_limited_pending st topic job lim with hp | hp <;> rw [hp]
    · exact h
    · exact pendingPositive_incPending h _
  · intro topic job r
    rcases enqueue_reserved_pending st topic job r with hp | hp <;> rw [hp]
    · exact h
    · exact pendingPositive_incPending h _
  · intro u lim
    rcases reserve_user_slot_pending st u lim with hp | hp <;> rw [hp]
    · exact h
    · exact pendingPositive_incPending h _
  · intro u
    rcases release_user_slot_pending st u with hp | hp <;> rw [hp]
    · exact h
    · exact pendingPositive_decPending h _
  · intro mid b
    obtain ⟨u, hp | hp⟩ := cancel_job_pending st mid b <;> rw [hp]
    · exact h
    · exact pendingPositive_decPending h _
  · intro topic
    obtain ⟨u, hp | hp⟩ := worker_step_pending st topic <;> rw [hp]
    · exact h
    · exact pendingPositive_decPending h _
  · intro u hu h1
    exact decPending_removes _ _ hu h1

/-- C9 witness: the invariant theorem applied to a concrete state holding
one pending job for requester 7. -/
theorem claim_C9_witness :
    PendingPositive
      (JobsQueue.release_user_slot { pending_by_user := [(7, 1)] } 7).pending_by_user ∧
    alookup (decPending [(7, 1)] 7) 7 = none :=
  ⟨(claim_C9_pending_invariant { pending_by_user := [(7, 1)] }
      (by intro p hp; simp at hp; simp [hp])).2.2.2.2.1 7,
   (claim_C9_pending_invariant { pending_by_user := [(7, 1)] }
      (by intro p hp; simp at hp; simp [hp])).2.2.2.2.2.2.2 7
      (by decide) (by decide)⟩

/-! ## Claim C10 — per-topic worker pool size -/

/-- C10: the effective per-topic pool size is `max(1, per_topic_limit)`;
even for `per_topic_limit ≤ 0` the lazily created pool of a topic holds
exactly one worker, never zero, and re-ensuring an existing pool does not
change it. -/
theorem claim_C10_worker_pool (mw ptl : Int) (topic : String) :
    ((mkJobsQueue mw ptl).ensure_workers topic).workerCount topic =
      (max 1 ptl).toNat ∧
    1 ≤ ((mkJobsQueue mw ptl).ensure_workers topic).workerCount topic ∧
    (ptl ≤ 0 →
      ((mkJobsQueue mw ptl).ensure_workers topic).workerCount topic = 1) ∧
    (((mkJobsQueue mw ptl).ensure_workers topic).ensure_workers topic).workerCount
        topic =
      ((mkJobsQueue mw ptl).ensure_workers topic).workerCount topic := by
  have hcount : ((mkJobsQueue mw ptl).ensure_workers topic).workerCount topic =
      (max 1 ptl).toNat := by
    simp [mkJobsQueue, JobsQueue.ensure_workers, JobsQueue.workerCount,
      alookup, aset]
  have hpos : 1 ≤ (max 1 ptl).toNat := by omega
  refine ⟨hcount, hcount ▸ hpos, ?_, ?_⟩
  · intro hle
    rw [hcount]
    omega
  · have hcond :
        (alookup ((mkJobsQueue mw ptl).ensure_workers topic).workers topic).getD 0
          ≠ 0 := by
      have hc := hcount
      unfold JobsQueue.workerCount at hc
      omega
    conv_lhs => rw [JobsQueue.ensure_workers, if_pos hcond]

/-- C10 witness: a controller built with `per_topic_limit = -3` still gets
a one-worker pool for topic `"t"`. -/
theorem claim_C10_witness :
    ((mkJobsQueue 2 (-3)).ensure_workers "t").workerCount "t" = 1 :=
  (claim_C10_worker_pool 2 (-3) "t").2.2.1 (by decide)

/-! ## Claim C2 — `cancel_job` semantics -/

/-- C2: `cancel_job(messageId, byAdmin)` returns true iff the registry
holds a job under `messageId` that is neither started nor canceled; on
success the job is marked canceled (recording `byAdmin`) and the
requester's pending counter is decremented at once; a second `cancel_job`
on the same id returns false, and cancellation of a started job returns
false. -/
theorem claim_C2_cancel_job (st : JobsQueue) (mid : Int) (b b' : Bool) :
    ((st.cancel_job mid b).1 = true ↔
      ∃ j, alookup st.registry mid = some j ∧
        j.started = false ∧ j.canceled = false) ∧
    (∀ j, alookup st.registry mid = some j → j.started = false →
        j.canceled = false →
        alookup (st.cancel_job mid b).2.registry mid =
          some { j with canceled := true, canceled_by_admin := b } ∧
        (0 < j.user_id → 1 ≤ aget st.pending_by_user j.user_id →
          aget (st.cancel_job mid b).2.pending_by_user j.user_id =
            aget st.pending_by_user j.user_id - 1)) ∧
    (((st.cancel_job mid b).2.cancel_job mid b').1 = false) ∧
    (∀ j, alookup st.registry mid = some j → j.started = true →
        (st.cancel_job mid b).1 = false) := by
  cases hreg : alookup st.registry mid with
  | none =>
      refine ⟨?_, ?_, ?_, ?_⟩
      · simp [JobsQueue.cancel_job, hreg]
      · intro j hj
        simp at hj
      · simp [JobsQueue.cancel_job, hreg]
      · intro j hj
        simp at hj
  | some job =>
      by_cases hs : job.started
      · refine ⟨?_, ?_, ?_, ?_⟩
        · have hfalse : (st.cancel_job mid b).1 = false := by
            simp [JobsQueue.cancel_job, hreg, hs]
          rw [hfalse]
          constructor
          · intro hh
            exact absurd hh (by simp)
          · rintro ⟨j, hj, hjs, -⟩
            injection hj with hj
            subst hj
            rw [hs] at hjs
            simp at hjs
        · intro j hj hjs
          injection hj with hj
          subst hj
          rw [hs] at hjs
          simp at hjs
        · simp [JobsQueue.cancel_job, hreg, hs]
        · intro j hj hjs
          simp [JobsQueue.cancel_job, hreg, hs]
      · by_cases hc : job.canceled
        · refine ⟨?_, ?_, ?_, ?_⟩
          · have hfalse : (st.cancel_job mid b).1 = false := by
              simp [JobsQueue.cancel_job, hreg, hs, hc]
            rw [hfalse]
            constructor
            · intro hh
              exact absurd hh (by simp)
            · rintro ⟨j, hj, -, hjc⟩
              injection hj with hj
              subst hj
              rw [hc] at hjc
              simp at hjc
          · intro j hj hjs hjc
            injection hj with hj
            subst hj
            rw [hc] at hjc
            simp at hjc
          · simp [JobsQueue.cancel_job, hreg, hs, hc]
          · intro j hj hjs
            injection hj with hj
            subst hj
            exact absurd hjs hs
        · have hres : st.cancel_job mid b =
              (true,
                if job.user_id ≠ 0 then
                  { st with
                    registry := aset st.registry mid
                      { job with canceled := true, canceled_by_admin := b },
                    queues := st.queues.map (fun p =>
                      (p.1, p.2.map (fun j =>
                        if j.message_id = mid then
                          { j with canceled := true, canceled_by_admin := b }
                        else j))),
                    pending_by_user := decPending st.pending_by_user job.user_id }
                else
                  { st with
                    registry := aset st.registry mid
                      { job with canceled := true, canceled_by_admin := b },
                    queues := st.queues.map (fun p =>
                      (p.1, p.2.map (fun j =>
                        if j.message_id = mid then
                          { j with canceled := true, canceled_by_admin := b }
                        else j))) }) := by
            simp only [JobsQueue.cancel_job, hreg, if_neg hs, if_neg hc]
            split <;> rfl
          have hreg' : alookup (st.cancel_job mid b).2.registry mid =
              some { job with canceled := true, canceled_by_admin := b } := by
            rw [hres]
            split <;> exact alookup_aset_self _ _ _
          refine ⟨?_, ?_, ?_, ?_⟩
          · rw [hres]
            simp only [true_iff]
            exact ⟨job, rfl, by revert hs; cases job.started <;> simp,
              by revert hc; cases job.canceled <;> simp⟩
          · intro j hj hjs hjc
            injection hj with hj
            subst hj
            refine ⟨hreg', ?_⟩
            intro hu h1
            have hu' : job.user_id ≠ 0 := by omega
            rw [hres]
            rw [if_pos hu']
            show aget (decPending st.pending_by_user job.user_id) job.user_id =
              aget st.pending_by_user job.user_id - 1
            rw [aget_decPending_self _ _ hu]
            split <;> omega
          · generalize hgen : (st.cancel_job mid b).2 = s2 at hreg'
            have hs' :
                (Job.started { job with canceled := true, canceled_by_admin := b })
                  = false := by
              revert hs
              cases job.started <;> simp
            simp [JobsQueue.cancel_job, hreg', hs']
          · intro j hj hjs
            injection hj with hj
            subst hj
            exact absurd hjs hs

/-- C2 witness: canceling a concrete queued job for requester 7 succeeds,
marks it canceled by an admin, and frees the pending slot. -/
theorem claim_C2_witness :
    alookup
      (JobsQueue.cancel_job
        { registry := [(5, { message_id := 5, user_id := 7 })],
          pending_by_user := [(7, 1)] } 5 true).2.registry 5 =
      some { message_id := 5, user_id := 7, canceled := true,
             canceled_by_admin := true } ∧
    aget
      (JobsQueue.cancel_job
        { registry := [(5, { message_id := 5, user_id := 7 })],
          pending_by_user := [(7, 1)] } 5 true).2.pending_by_user 7 = 0 := by
  have h :=
    (claim_C2_cancel_job
      { registry := [(5, { message_id := 5, user_id := 7 })],
        pending_by_user := [(7, 1)] } 5 true false).2.1
      { message_id := 5, user_id := 7 } (by decide) rfl rfl
  refine ⟨h.1, ?_⟩
  have h2 := h.2 (by decide) (by decide)
  simpa [aget, alookup] using h2

/-! ## Workflow templating (`comfy/client.py`, `prepare_workflow`)

JSON values: a node input holds a literal (string/number/bool/null) or an
edge, which is a 2-element array `[sourceNodeId, outputIndex]`.  Numbers
are modelled as `Int` (only identity matters to the templating logic). -/

inductive JVal where
  | null : JVal
  | str : String → JVal
  | num : Int → JVal
  | bool : Bool → JVal
  | arr : List JVal → JVal
  deriving Repr

/-- A `NodeRule` from `src/app/domain/models.py`. -/
structure NodeRule where
  type : String
  node_ids : List String
  key : String
  param : Option String := none
  deriving Repr

/-- One workflow node: `{"class_type": ..., "inputs": {...}}`. -/
structure Node where
  class_type : String := ""
  inputs : List (String × JVal) := []
  deriving Repr

/-- A workflow graph: node id → node. -/
abbrev Graph := List (String × Node)

/-- Runtime parameters (`params` / `eff_params`). -/
abbrev Params := List (String × JVal)

/-- Python's `d.get(k, None) is not None` discipline: a stored JSON `null`
and an absent key are indistinguishable everywhere `prepare_workflow`
reads `eff_params`. -/
def pGet (m : Params) (k : String) : Option JVal :=
  match alookup m k with
  | some v => match v with
    | JVal.null => none
    | v => some v
  | none => none

/-- Python whitespace for `str.strip()`. -/
def isSpaceChar (c : Char) : Bool := c = ' ' || c = '\t' || c = '\n' || c = '\r'

/-- `s.strip()` (modelled over the character list, kernel-computable). -/
def pyStrip (s : String) : String :=
  String.mk (((s.data.dropWhile isSpaceChar).reverse.dropWhile isSpaceChar).reverse)

/-- `s.lower()`. -/
def pyLower (s : String) : String := String.mk (s.data.map Char.toLower)

/-- `s.startswith(pre)`. -/
def pyStartsWith (s pre : String) : Bool := pre.data.isPrefixOf s.data

/-- Everything after the first `":"`: `s.split(":", 1)[1]` when a colon
exists. -/
def afterFirstColon (s : String) : String :=
  String.mk ((s.data.dropWhile (fun c => !(c = ':'))).drop 1)

/-- `rtype = (rule.type or "").strip().lower()`. -/
def ruleType (rule : NodeRule) : String := pyLower (pyStrip rule.type)

/-- `wf[nid]["inputs"][key] = v`; `none` models the uncaught `KeyError`
when `nid` is not in the graph. -/
def gSet (g : Graph) (nid key : String) (v : JVal) : Option Graph :=
  match alookup g nid with
  | none => none
  | some node => some (aset g nid { node with inputs := aset node.inputs key v })

/-- `gSet` under a `try/except: pass` (used by the `input_images` loop). -/
def gSetD (g : Graph) (nid key : String) (v : JVal) : Graph :=
  (gSet g nid key v).getD g

/-- `for nid in rule.node_ids: wf[nid]["inputs"][key] = v` (unguarded). -/
def setInputs (g : Graph) (ids : List String) (key : String) (v : JVal) :
    Option Graph :=
  match ids with
  | [] => some g
  | nid :: rest => do
      let g' ← gSet g nid key v
      setInputs g' rest key v

/-- Edge test of `_unlink_and_remove_nodes`:
`isinstance(v, list) and len(v) >= 1 and isinstance(v[0], str) and v[0] in remove_set`. -/
def isEdgeTo (removeIds : List String) : JVal → Bool
  | .arr (JVal.str s :: _) => removeIds.contains s
  | _ => false

/-- Inner loop of `_unlink_and_remove_nodes` on one node: delete every
input entry whose edge references a removed id. -/
def cleanNode (removeIds : List String) (node : Node) : Node :=
  { node with
    inputs := node.inputs.filter (fun kv => !isEdgeTo removeIds kv.2) }

/-- `_unlink_and_remove_nodes(workflow, remove_ids)`: delete every input
entry whose edge references a removed id, then pop the removed nodes. -/
def unlinkRemove (g : Graph) (removeIds : List String) : Graph :=
  if removeIds = [] then g
  else
    (g.map (fun p => (p.1, cleanNode removeIds p.2)))
      |>.filter (fun p => !removeIds.contains p.1)

/-- Text-like param name for `text`/`string` rules: `text:<name>` and
`string:<name>` embed the name (`rtype.split(":", 1)[1].strip()`); plain
`text`/`string` use `rule.param` (`None`-or-empty means no mapping). -/
def textParamKey (rule : NodeRule) : Option String :=
  if pyStartsWith (ruleType rule) "text:" ∨ pyStartsWith (ruleType rule) "string:" then
    some (pyStrip (afterFirstColon (ruleType rule)))
  else if ruleType rule = "text" ∨ ruleType rule = "string" then
    match rule.param with
    | some p => if p = "" then none else some (pyStrip p)
    | none => none
  else none

/-- Write of the text-like passes: `params[<pk>]`, if present, goes to
every target node (`if param_key: val = eff_params.get(param_key); ...`). -/
def writeTextParam (eff : Params) (g : Graph) (rule : NodeRule)
    (pk : Option String) : Option Graph :=
  match pk with
  | some pk =>
      if pk = "" then some g
      else match pGet eff pk with
        | some v => setInputs g rule.node_ids rule.key v
        | none => some g
  | none => some g

/-- One rule of pass 1 (`prompt` / `negative_prompt` / generic text). -/
def applyRuleText (prompt : String) (eff : Params) (g : Graph)
    (rule : NodeRule) : Option Graph :=
  if ruleType rule = "" then some g
  else if ruleType rule = "prompt" then
    setInputs g rule.node_ids rule.key (JVal.str prompt)
  else if ruleType rule = "negative_prompt" then
    match pGet eff "negative_prompt" with
    | some v => setInputs g rule.node_ids rule.key v
    | none => some g
  else writeTextParam eff g rule (textParamKey rule)

/-- Pass 1: `prompt`, `negative_prompt` and `text`/`string` rules, one
sweep over the rule list. -/
def passTextLike (prompt : String) (eff : Params) :
    Graph → List NodeRule → Option Graph
  | g, [] => some g
  | g, rule :: rest => do
      let g' ← applyRuleText prompt eff g rule
      passTextLike prompt eff g' rest

/-- One rule of the single-input-image pass. -/
def applyRuleImage (eff : Params) (g : Graph) (rule : NodeRule) : Option Graph :=
  if ruleType rule = "input_image" then
    match pGet eff "input_image" with
    | some v => setInputs g rule.node_ids rule.key v
    | none => some g
  else some g

/-- Pass 1.1a: `input_image` rules. -/
def passInputImage (eff : Params) : Graph → List NodeRule → Option Graph
  | g, [] => some g
  | g, rule :: rest => do
      let g' ← applyRuleImage eff g rule
      passInputImage eff g' rest

/-- `for idx, fname in enumerate(vals): ... wf[nid]["inputs"][key] = fname`
guarded by `try/except`, stopping at the shorter of the two lists. -/
def assignSeq (g : Graph) (key : String) : List (JVal × String) → Graph
  | [] => g
  | (v, nid) :: rest => assignSeq (gSetD g nid key v) key rest

/-- One rule of the multi-input-images pass, with dynamic pruning. -/
def applyRuleImages (eff : Params) (g : Graph) (rule : NodeRule) : Graph :=
  if ruleType rule ≠ "input_images" then g
  else
    match pGet eff "input_images" with
    | some (JVal.arr vs) =>
        if vs.isEmpty then unlinkRemove g rule.node_ids
        else
          let g' := assignSeq g rule.key (vs.zip rule.node_ids)
          if min vs.length rule.node_ids.length < rule.node_ids.length then
            unlinkRemove g' (rule.node_ids.drop (min vs.length rule.node_ids.length))
          else g'
    | _ => unlinkRemove g rule.node_ids

/-- Pass 1.1b: `input_images` rules (never raises). -/
def passInputImages (eff : Params) : Graph → List NodeRule → Graph
  | g, [] => g
  | g, rule :: rest => passInputImages eff (applyRuleImages eff g rule) rest

/-- One rule of the scalar catch-all pass (pass 2). -/
def applyRuleScalar (eff : Params) (g : Graph) (rule : NodeRule) : Option Graph :=
  if ruleType rule = "prompt" ∨ ruleType rule = "negative_prompt" ∨
      ruleType rule = "input_image" ∨ ruleType rule = "input_images" ∨
      pyStartsWith (ruleType rule) "text" ∨ pyStartsWith (ruleType rule) "string" then
    some g
  else
    match pGet eff (ruleType rule) with
    | some v => setInputs g rule.node_ids rule.key v
    | none => some g

/-- Pass 2: every remaining rule keyed on its lower-cased type. -/
def passScalar (eff : Params) : Graph → List NodeRule → Option Graph
  | g, [] => some g
  | g, rule :: rest => do
      let g' ← applyRuleScalar eff g rule
      passScalar eff g' rest

/-- `eff_params` plus the count of `random.randint` calls: the seed is
generated exactly when `params` lacks a (non-null) `"seed"`. `randVal`
stands for the value `random.randint(0, 2**48 - 1)` would return. -/
def mkEffParams (params : Params) (randVal : Int) : Params × Nat :=
  match pGet params "seed" with
  | none => (aset params "seed" (JVal.num randVal), 1)
  | some _ => (params, 0)

/-- `ComfyClient.prepare_workflow(base_workflow, nodes_map, prompt, params)`:
deep-copy the template, resolve `eff_params`, then run the four source
loops in order.  The second component counts RNG invocations. -/
def prepare_workflow (base : Graph) (rules : List NodeRule) (prompt : String)
    (params : Params) (randVal : Int) : Option Graph × Nat :=
  let (eff, nRand) := mkEffParams params randVal
  let res : Option Graph := do
    let g1 ← passTextLike prompt eff base rules
    let g2 ← passInputImage eff g1 rules
    let g3 := passInputImages eff g2 rules
    passScalar eff g3 rules
  (res, nRand)

/-! ## Claim C4 — determinism given an explicit seed -/

/-- C4: with a non-null `seed` in `params`, `prepare_workflow` is a pure
function of template, rules, prompt and params — the RNG argument is
never consulted (0 calls) and two renders agree; without a seed the RNG
is consulted exactly once; it is never consulted more than once. -/
theorem claim_C4_render_deterministic :
    (∀ (base : Graph) (rules : List NodeRule) (prompt : String)
        (params : Params) (v : JVal) (r1 r2 : Int),
        pGet params "seed" = some v →
        prepare_workflow base rules prompt params r1 =
          prepare_workflow base rules prompt params r2 ∧
        (prepare_workflow base rules prompt params r1).2 = 0) ∧
    (∀ (base : Graph) (rules : List NodeRule) (prompt : String)
        (params : Params) (r : Int),
        pGet params "seed" = none →
        (prepare_workflow base rules prompt params r).2 = 1) ∧
    (∀ (base : Graph) (rules : List NodeRule) (prompt : String)
        (params : Params) (r : Int),
        (prepare_workflow base rules prompt params r).2 ≤ 1) := by
  refine ⟨?_, ?_, ?_⟩
  · intro base rules prompt params v r1 r2 hseed
    unfold prepare_workflow mkEffParams
    rw [hseed]
    exact ⟨rfl, rfl⟩
  · intro base rules prompt params r hseed
    unfold prepare_workflow mkEffParams
    rw [hseed]
  · intro base rules prompt params r
    unfold prepare_workflow mkEffParams
    cases pGet params "seed" <;> simp

/-! ## Claim C6 — pass order of the render algorithm

`renderSixPass` follows the spec's words: six passes, each a sweep of the
entire rule list, in the order prompt / negative_prompt / generic text /
input_image / input_images / scalar.  The implementation instead fuses
the first three passes into one sweep that dispatches per rule. -/

/-- Value stored at `g[nid].inputs[key]`. -/
def getInputVal (g : Graph) (nid key : String) : Option JVal :=
  (alookup g nid).bind (fun n => alookup n.inputs key)

/-- String stored at `g[nid].inputs[key]` of a render result (`""` when
absent or not a string) — used to compare renders without `DecidableEq`. -/
def strAt (r : Option Graph) (nid key : String) : String :=
  match r.bind (fun g => getInputVal g nid key) with
  | some (JVal.str s) => s
  | _ => ""

/-- Spec pass 1: rules of kind `prompt` write the prompt. -/
def passPromptRef (prompt : String) : Graph → List NodeRule → Option Graph
  | g, [] => some g
  | g, rule :: rest =>
      if ruleType rule = "prompt" then
        match setInputs g rule.node_ids rule.key (JVal.str prompt) with
        | none => none
        | some g' => passPromptRef prompt g' rest
      else passPromptRef prompt g rest

/-- Spec pass 2: rules of kind `negative_prompt` write
`params["negative_prompt"]` when present. -/
def passNegRef (eff : Params) : Graph → List NodeRule → Option Graph
  | g, [] => some g
  | g, rule :: rest =>
      if ruleType rule = "negative_prompt" then
        match pGet eff "negative_prompt" with
        | some v =>
            match setInputs g rule.node_ids rule.key v with
            | none => none
            | some g' => passNegRef eff g' rest
        | none => passNegRef eff g rest
      else passNegRef eff g rest

/-- Spec pass 3: generic text rules (`text`/`string`/`text:<name>`/
`string:<name>`) write the looked-up parameter when present. -/
def passTextRef (eff : Params) : Graph → List NodeRule → Option Graph
  | g, [] => some g
  | g, rule :: rest =>
      match writeTextParam eff g rule (textParamKey rule) with
      | none => none
      | some g' => passTextRef eff g' rest

/-- Reference render following the spec's six-pass decomposition, passes
1–3 each sweeping the whole rule list before the next starts. -/
def renderSixPass (base : Graph) (rules : List NodeRule) (prompt : String)
    (params : Params) (randVal : Int) : Option Graph × Nat :=
  let (eff, nRand) := mkEffParams params randVal
  let res : Option Graph := do
    let g1 ← passPromptRef prompt base rules
    let g2 ← passNegRef eff g1 rules
    let g3 ← passTextRef eff g2 rules
    let g4 ← passInputImage eff g3 rules
    let g5 := passInputImages eff g4 rules
    passScalar eff g5 rules
  (res, nRand)

/-- Amended reference: the spec's passes 1–3 are applied rule-by-rule (to
the singleton `[rule]`, in list order) instead of pass-by-pass, then
passes 4–6 sweep the whole list as the spec says. -/
def passFusedRef (prompt : String) (eff : Params) :
    Graph → List NodeRule → Option Graph
  | g, [] => some g
  | g, rule :: rest =>
      match (passPromptRef prompt g [rule]).bind (fun g1 =>
          (passNegRef eff g1 [rule]).bind (fun g2 =>
            passTextRef eff g2 [rule])) with
      | none => none
      | some g' => passFusedRef prompt eff g' rest

/-- Amended reference render (fused 1–3, then 4, 5, 6). -/
def renderAmendedRef (base : Graph) (rules : List NodeRule) (prompt : String)
    (params : Params) (randVal : Int) : Option Graph × Nat :=
  let (eff, nRand) := mkEffParams params randVal
  let res : Option Graph := do
    let g1 ← passFusedRef prompt eff base rules
    let g2 ← passInputImage eff g1 rules
    let g3 := passInputImages eff g2 rules
    passScalar eff g3 rules
  (res, nRand)

theorem applyRuleText_split (prompt : String) (eff : Params) (g : Graph)
    (rule : NodeRule) :
    applyRuleText prompt eff g rule =
      (passPromptRef prompt g [rule]).bind (fun g1 =>
        (passNegRef eff g1 [rule]).bind (fun g2 =>
          passTextRef eff g2 [rule])) := by
  by_cases h0 : ruleType rule = ""
  · have ht : textParamKey rule = none := by
      unfold textParamKey
      rw [h0]
      rw [if_neg (by decide), if_neg (by decide)]
    have hp : ruleType rule ≠ "prompt" := by rw [h0]; decide
    have hn : ruleType rule ≠ "negative_prompt" := by rw [h0]; decide
    simp [applyRuleText, passPromptRef, passNegRef, passTextRef,
      h0, hp, hn, ht, writeTextParam]
  · by_cases hp : ruleType rule = "prompt"
    · have hn : ruleType rule ≠ "negative_prompt" := by rw [hp]; decide
      have ht : textParamKey rule = none := by
        unfold textParamKey
        rw [hp]
        rw [if_neg (by decide), if_neg (by decide)]
      cases hset : setInputs g rule.node_ids rule.key (JVal.str prompt) with
      | none =>
          simp [applyRuleText, passPromptRef, passNegRef, passTextRef,
            h0, hp, hn, ht, writeTextParam, hset]
      | some g2 =>
          simp [applyRuleText, passPromptRef, passNegRef, passTextRef,
            h0, hp, hn, ht, writeTextParam, hset]
    · by_cases hn : ruleType rule = "negative_prompt"
      · have ht : textParamKey rule = none := by
          unfold textParamKey
          rw [hn]
          rw [if_neg (by decide), if_neg (by decide)]
        cases hpg : pGet eff "negative_prompt" with
        | none =>
            simp [applyRuleText, passPromptRef, passNegRef, passTextRef,
              h0, hp, hn, ht, writeTextParam, hpg]
        | some v =>
            cases hset : setInputs g rule.node_ids rule.key v with
            | none =>
                simp [applyRuleText, passPromptRef, passNegRef, passTextRef,
                  h0, hp, hn, ht, writeTextParam, hpg, hset]
            | some g2 =>
                simp [applyRuleText, passPromptRef, passNegRef, passTextRef,
                  h0, hp, hn, ht, writeTextParam, hpg, hset]
      · cases hw : writeTextParam eff g rule (textParamKey rule) with
        | none =>
            simp [applyRuleText, passPromptRef, passNegRef, passTextRef,
              h0, hp, hn, hw]
        | some g2 =>
            simp [applyRuleText, passPromptRef, passNegRef, passTextRef,
              h0, hp, hn, hw]

theorem passTextLike_eq_fusedRef (prompt : String) (eff : Params) :
    ∀ (rules : List NodeRule) (g : Graph),
      passTextLike prompt eff g rules = passFusedRef prompt eff g rules := by
  intro rules
  induction rules with
  | nil => intro g; rfl
  | cons rule rest ih =>
      intro g
      simp only [passTextLike, passFusedRef]
      rw [← applyRuleText_split]
      cases applyRuleText prompt eff g rule with
      | none => rfl
      | some g' => simpa using ih g'

/-- C6 counterexample: with a `text` rule listed before a `prompt` rule on
the same node slot, the implementation (one fused sweep, list order wins)
leaves the prompt `"P"` in the slot, while the spec's six sequential
passes leave the text parameter `"V"` — so the implemented render does not
equal the spec's six-pass reference. -/
theorem claim_C6_counterexample :
    prepare_workflow
        [("5", { inputs := [("text", JVal.str "")] })]
        [{ type := "text", node_ids := ["5"], key := "text", param := some "t" },
         { type := "prompt", node_ids := ["5"], key := "text" }]
        "P" [("t", JVal.str "V"), ("seed", JVal.num 1)] 0 ≠
      renderSixPass
        [("5", { inputs := [("text", JVal.str "")] })]
        [{ type := "text", node_ids := ["5"], key := "text", param := some "t" },
         { type := "prompt", node_ids := ["5"], key := "text" }]
        "P" [("t", JVal.str "V"), ("seed", JVal.num 1)] 0 := by
  intro h
  have h2 := congrArg (fun r => strAt r.1 "5" "text") h
  revert h2
  decide

/-- C6 (amended): the implemented render equals the reference whose
passes 1–3 (prompt, negative_prompt, generic text) are applied to each
rule in list order — one fused sweep with per-rule kind dispatch — and
whose passes 4 (`input_image`), 5 (`input_images` with pruning) and
6 (scalar catch-all) then sweep the entire rule list in the spec's
order. -/
theorem claim_C6_pass_order (base : Graph) (rules : List NodeRule)
    (prompt : String) (params : Params) (randVal : Int) :
    prepare_workflow base rules prompt params randVal =
      renderAmendedRef base rules prompt params randVal := by
  unfold prepare_workflow renderAmendedRef
  cases mkEffParams params randVal with
  | mk eff n => simp only [passTextLike_eq_fusedRef]

/-! ## Event await loop of `submit_and_wait` (`comfy/client.py`)

The WebSocket loop is modelled on a finite trace: each list element is
one loop iteration — the wall-clock instant `t` observed at the
timeout check at the top of the iteration, together with what `recv()`
then delivers.  `start_ts` is recorded before connecting and submitting;
`t_queued` after `POST /prompt` succeeds.  Artifact extraction is outside
the loop and not modelled; a completed run yields the two timings. -/

inductive WsEvent where
  | binaryFrame
  | invalidJson
  | wsTimeout
  | other
  | executing (pid : String) (node : Option String)
  | execError (pid : String) (msg : Option String)
  deriving Repr, DecidableEq

/-- Failure modes of the loop, distinguished by their raise site: the
generation-timeout `ComfyError` at the loop head vs the
`execution_error` `ComfyError`. -/
inductive RunErr where
  | timeout
  | comfy (msg : String)
  deriving Repr, DecidableEq

/-- `d.get("exception_message") or "ComfyUI execution error"` (Python
`or`: `None` and `""` both yield the default). -/
def errMsg : Option String → String
  | some s => if s = "" then "ComfyUI execution error" else s
  | none => "ComfyUI execution error"

/-- The timestamps a successful loop run recorded. -/
structure AwaitDone where
  tExecStart : Option Int
  tExecDone : Int
  deriving Repr, DecidableEq

/-- The `while True` event loop (lines 245–286): timeout check first,
then skip binary frames / bad JSON / `recv` timeouts / other event types,
track `executing` events of the submitted `prompt_id` (first one with a
node records `t_exec_start`; one with `node=None` completes), and raise
on any `execution_error` event.  `none` = the finite trace ended before
the loop did (not observable in the program, whose loop only exits via
completion, error or timeout). -/
def awaitLoop (pid : String) (startTs runTimeout : Int) :
    List (Int × WsEvent) → Option Int → Option (Except RunErr AwaitDone)
  | [], _ => none
  | (t, ev) :: rest, tStart =>
      if runTimeout < t - startTs then some (.error .timeout)
      else
        match ev with
        | .binaryFrame => awaitLoop pid startTs runTimeout rest tStart
        | .invalidJson => awaitLoop pid startTs runTimeout rest tStart
        | .wsTimeout => awaitLoop pid startTs runTimeout rest tStart
        | .other => awaitLoop pid startTs runTimeout rest tStart
        | .executing p node =>
            if p ≠ pid then awaitLoop pid startTs runTimeout rest tStart
            else
              match node with
              | none => some (.ok ⟨tStart, t⟩)
              | some _ =>
                  awaitLoop pid startTs runTimeout rest
                    (if tStart.isNone then some t else tStart)
        | .execError _ msg => some (.error (.comfy (errMsg msg)))

/-- Python `x or y` on an optional timestamp (`None` and `0.0` falsy). -/
def pyOrTime (x : Option Int) (y : Int) : Int :=
  match x with
  | some v => if v = 0 then y else v
  | none => y

/-- The timing block (lines 438–446). -/
def computeTimings (startTs : Int) (tQueued tExecStart tExecDone : Option Int)
    (now : Int) : Int × Int :=
  let tq := match tQueued with | none => startTs | some v => v
  match tExecStart with
  | none => (max 0 (pyOrTime tExecDone now - tq), 0)
  | some ts => (max 0 (ts - tq), max 0 (pyOrTime tExecDone now - ts))

/-- `submit_and_wait` after a successful submission: run the loop from
`t_queued`, and on completion derive `(comfy_queue_s, comfy_exec_s)`.
`now` is the wall clock at the timing computation. -/
def submitAndWait (pid : String) (startTs tQueued runTimeout : Int)
    (events : List (Int × WsEvent)) (now : Int) :
    Option (Except RunErr (Int × Int)) :=
  match awaitLoop pid startTs runTimeout events none with
  | none => none
  | some (.error e) => some (.error e)
  | some (.ok res) =>
      some (.ok (computeTimings startTs (some tQueued) res.tExecStart
        (some res.tExecDone) now))

/-- Terminal triggers of the loop: a completion event for the tracked id,
or any `execution_error` event (the code does not filter those by id). -/
def isTerminalEv (pid : String) : WsEvent → Bool
  | .executing p node => p = pid && node.isNone
  | .execError _ _ => true
  | _ => false

/-- First decision the loop reaches on a trace: `some true` = the timeout
check fires first, `some false` = a terminal event is processed first. -/
def firstOutcome (pid : String) (startTs rt : Int) :
    List (Int × WsEvent) → Option Bool
  | [] => none
  | (t, ev) :: rest =>
      if rt < t - startTs then some true
      else if isTerminalEv pid ev then some false
      else firstOutcome pid startTs rt rest

theorem awaitLoop_ok_times (pid : String) (startTs rt : Int) :
    ∀ (events : List (Int × WsEvent)) (tS : Option Int) (res : AwaitDone),
      awaitLoop pid startTs rt events tS = some (.ok res) →
      res.tExecDone ∈ events.map Prod.fst ∧
      (∀ ts, res.tExecStart = some ts →
        ts ∈ events.map Prod.fst ∨ tS = some ts) := by
  intro events
  induction events with
  | nil =>
      intro tS res h
      simp [awaitLoop] at h
  | cons te rest ih =>
      intro tS res h
      obtain ⟨t, ev⟩ := te
      simp only [awaitLoop] at h
      split at h
      · exact absurd h (by simp)
      · cases ev with
        | binaryFrame =>
            obtain ⟨h1, h2⟩ := ih _ _ h
            refine ⟨List.mem_cons_of_mem _ h1, fun ts hts => ?_⟩
            rcases h2 ts hts with hm | hm
            · exact Or.inl (List.mem_cons_of_mem _ hm)
            · exact Or.inr hm
        | invalidJson =>
            obtain ⟨h1, h2⟩ := ih _ _ h
            refine ⟨List.mem_cons_of_mem _ h1, fun ts hts => ?_⟩
            rcases h2 ts hts with hm | hm
            · exact Or.inl (List.mem_cons_of_mem _ hm)
            · exact Or.inr hm
        | wsTimeout =>
            obtain ⟨h1, h2⟩ := ih _ _ h
            refine ⟨List.mem_cons_of_mem _ h1, fun ts hts => ?_⟩
            rcases h2 ts hts with hm | hm
            · exact Or.inl (List.mem_cons_of_mem _ hm)
            · exact Or.inr hm
        | other =>
            obtain ⟨h1, h2⟩ := ih _ _ h
            refine ⟨List.mem_cons_of_mem _ h1, fun ts hts => ?_⟩
            rcases h2 ts hts with hm | hm
            · exact Or.inl (List.mem_cons_of_mem _ hm)
            · exact Or.inr hm
        | executing p node =>
            dsimp only at h
            by_cases hp : p ≠ pid
            · rw [if_pos hp] at h
              obtain ⟨h1, h2⟩ := ih _ _ h
              refine ⟨List.mem_cons_of_mem _ h1, fun ts hts => ?_⟩
              rcases h2 ts hts with hm | hm
              · exact Or.inl (List.mem_cons_of_mem _ hm)
              · exact Or.inr hm
            · rw [if_neg hp] at h
              cases node with
              | none =>
                  dsimp only at h
                  injection h with h
                  injection h with h
                  subst h
                  refine ⟨by simp, fun ts hts => Or.inr (by simpa using hts)⟩
              | some n =>
                  dsimp only at h
                  obtain ⟨h1, h2⟩ := ih _ _ h
                  refine ⟨List.mem_cons_of_mem _ h1, fun ts hts => ?_⟩
                  rcases h2 ts hts with hm | hm
                  · exact Or.inl (List.mem_cons_of_mem _ hm)
                  · cases tS with
                    | none =>
                        simp only [Option.isNone_none, if_true] at hm
                        injection hm with hm
                        subst hm
                        exact Or.inl (by simp)
                    | some x =>
                        simp only [Option.isNone_some, if_false] at hm
                        exact Or.inr hm
        | execError q msg =>
            exact absurd h (by simp)

/-! ## Claim C5 — timing derivation of completed runs -/

/-- C5: for every completed (non-failing) run, if an `executing` event
with a populated node was observed then
`comfy_queue_s = max(0, t_exec_start − t_queued)` and
`comfy_exec_s = max(0, t_exec_done − t_exec_start)`; if execution never
visibly started, `comfy_queue_s = max(0, t_exec_done − t_queued)` and
`comfy_exec_s = 0`; both durations are ≥ 0 in every case.  (Event times
are positive wall-clock stamps.) -/
theorem claim_C5_timings (pid : String) (startTs tQueued rt now : Int)
    (events : List (Int × WsEvent)) (q e : Int)
    (hpos : ∀ te ∈ events, 0 < te.1)
    (h : submitAndWait pid startTs tQueued rt events now = some (.ok (q, e))) :
    0 ≤ q ∧ 0 ≤ e ∧
    ∃ res, awaitLoop pid startTs rt events none = some (.ok res) ∧
      (match res.tExecStart with
       | some ts => q = max 0 (ts - tQueued) ∧ e = max 0 (res.tExecDone - ts)
       | none => q = max 0 (res.tExecDone - tQueued) ∧ e = 0) := by
  cases hloop : awaitLoop pid startTs rt events none with
  | none => simp [submitAndWait, hloop] at h
  | some r =>
      cases r with
      | error er => simp [submitAndWait, hloop] at h
      | ok res =>
          have h' : computeTimings startTs (some tQueued) res.tExecStart
              (some res.tExecDone) now = (q, e) := by
            have h2 := h
            simp only [submitAndWait, hloop] at h2
            exact Except.ok.inj (Option.some.inj h2)
          clear h
          have hdone : 0 < res.tExecDone := by
            have hm := (awaitLoop_ok_times pid startTs rt events none res hloop).1
            rcases List.mem_map.mp hm with ⟨te, hte, hfst⟩
            exact hfst ▸ hpos te hte
          have hdne : pyOrTime (some res.tExecDone) now = res.tExecDone := by
            simp [pyOrTime, ne_of_gt hdone]
          refine ⟨?_, ?_, res, rfl, ?_⟩
          · rw [show q = (computeTimings startTs (some tQueued) res.tExecStart
                (some res.tExecDone) now).1 from by rw [h']]
            unfold computeTimings
            cases res.tExecStart <;> simp
          · rw [show e = (computeTimings startTs (some tQueued) res.tExecStart
                (some res.tExecDone) now).2 from by rw [h']]
            unfold computeTimings
            cases res.tExecStart <;> simp
          · cases hst : res.tExecStart with
            | none =>
                have hqe : computeTimings startTs (some tQueued) none
                    (some res.tExecDone) now = (q, e) := by rw [← hst, h']
                unfold computeTimings at hqe
                rw [hdne] at hqe
                exact ⟨(congrArg Prod.fst hqe).symm, (congrArg Prod.snd hqe).symm⟩
            | some ts =>
                have hqe : computeTimings startTs (some tQueued) (some ts)
                    (some res.tExecDone) now = (q, e) := by rw [← hst, h']
                unfold computeTimings at hqe
                rw [hdne] at hqe
                exact ⟨(congrArg Prod.fst hqe).symm, (congrArg Prod.snd hqe).symm⟩

instance {ε α : Type} [DecidableEq ε] [DecidableEq α] :
    DecidableEq (Except ε α) := fun a b =>
  match a, b with
  | .error x, .error y =>
      if h : x = y then isTrue (congrArg Except.error h)
      else isFalse (fun he => h (Except.error.inj he))
  | .ok x, .ok y =>
      if h : x = y then isTrue (congrArg Except.ok h)
      else isFalse (fun he => h (Except.ok.inj he))
  | .error _, .ok _ => isFalse (fun he => Except.noConfusion he)
  | .ok _, .error _ => isFalse (fun he => Except.noConfusion he)

/-- C5 witness: a run queued at t=2 that starts executing at t=3 and
completes at t=5 reports queue duration 1 and exec duration 2. -/
theorem claim_C5_witness :
    0 ≤ (1 : Int) ∧ 0 ≤ (2 : Int) ∧
    ∃ res, awaitLoop "p" 1 100
        [(3, WsEvent.executing "p" (some "3")), (5, WsEvent.executing "p" none)]
        none = some (.ok res) ∧
      (match res.tExecStart with
       | some ts => (1 : Int) = max 0 (ts - 2) ∧ (2 : Int) = max 0 (res.tExecDone - ts)
       | none => (1 : Int) = max 0 (res.tExecDone - 2) ∧ (2 : Int) = 0) :=
  claim_C5_timings "p" 1 2 100 6
    [(3, WsEvent.executing "p" (some "3")), (5, WsEvent.executing "p" none)]
    1 2 (by decide) (by decide)

/-! ## Claim C7 — execution errors -/

theorem awaitLoop_first_error (pid p : String) (startTs rt t : Int)
    (m : Option String) (rest : List (Int × WsEvent)) :
    ∀ (pre : List (Int × WsEvent)) (tS : Option Int),
      (∀ te ∈ pre, ¬(rt < te.1 - startTs) ∧ isTerminalEv pid te.2 = false) →
      ¬(rt < t - startTs) →
      awaitLoop pid startTs rt (pre ++ (t, WsEvent.execError p m) :: rest) tS =
        some (.error (.comfy (errMsg m))) := by
  intro pre
  induction pre with
  | nil =>
      intro tS hpre ht
      simp only [List.nil_append, awaitLoop, if_neg ht]
  | cons te pre' ih =>
      intro tS hpre ht
      obtain ⟨tpre, ev⟩ := te
      have hhead := hpre (tpre, ev) (List.mem_cons_self _ _)
      have htail : ∀ te ∈ pre',
          ¬(rt < te.1 - startTs) ∧ isTerminalEv pid te.2 = false :=
        fun te hte => hpre te (List.mem_cons_of_mem _ hte)
      simp only [List.cons_append, awaitLoop, if_neg hhead.1]
      cases ev with
      | binaryFrame => exact ih tS htail ht
      | invalidJson => exact ih tS htail ht
      | wsTimeout => exact ih tS htail ht
      | other => exact ih tS htail ht
      | executing pp node =>
          dsimp only
          by_cases hp : pp ≠ pid
          · rw [if_pos hp]
            exact ih tS htail ht
          · rw [if_neg hp]
            cases node with
            | none =>
                exfalso
                have hterm := hhead.2
                have hpp : pp = pid := not_not.mp hp
                simp [isTerminalEv, hpp] at hterm
            | some n => exact ih _ htail ht
      | execError q mm =>
          exfalso
          have hterm := hhead.2
          simp [isTerminalEv] at hterm

/-- C7 counterexample: the loop raises on any `execution_error` event
without checking its `prompt_id`.  With an error for another execution id
(`"q"`, message `"X"`) delivered before the tracked one (`"p"`, message
`"OOM"`), the call fails with `"X"`, not with the tracked execution's
remote-reported message `"OOM"` — refuting the claim as stated. -/
theorem claim_C7_counterexample :
    submitAndWait "p" 0 1 100
        [(1, WsEvent.execError "q" (some "X")),
         (2, WsEvent.execError "p" (some "OOM"))] 5 =
      some (.error (.comfy "X")) ∧ "X" ≠ "OOM" :=
  ⟨by decide, by decide⟩

/-- C7 (amended): if the first terminal trigger in the stream is an
`ExecutionError` event — of any execution id, since the code does not
filter error events by id — and it arrives before the run timeout with a
non-empty message, `submitAndTrack` fails with exactly that message (an
empty or absent message is replaced by the default
`"ComfyUI execution error"`), and no result is returned. -/
theorem claim_C7_exec_error (pid p : String) (startTs tQueued rt now t : Int)
    (pre rest : List (Int × WsEvent)) (s : String)
    (hpre : ∀ te ∈ pre, ¬(rt < te.1 - startTs) ∧ isTerminalEv pid te.2 = false)
    (ht : ¬(rt < t - startTs)) (hs : s ≠ "") :
    submitAndWait pid startTs tQueued rt
        (pre ++ (t, WsEvent.execError p (some s)) :: rest) now =
      some (.error (.comfy s)) := by
  unfold submitAndWait
  rw [awaitLoop_first_error pid p startTs rt t (some s) rest pre none hpre ht]
  simp [errMsg, hs]

/-- C7 witness: a run whose stream delivers a preview frame and then an
`execution_error` with message `"OOM"` fails with exactly `"OOM"`. -/
theorem claim_C7_witness :
    submitAndWait "p" 0 1 100
        [(1, WsEvent.other), (2, WsEvent.execError "p" (some "OOM"))] 5 =
      some (.error (.comfy "OOM")) :=
  claim_C7_exec_error "p" "p" 0 1 100 5 2 [(1, WsEvent.other)] [] "OOM"
    (by decide) (by decide) (by decide)

/-! ## Claim C8 — the run timeout -/

theorem awaitLoop_timeout_iff (pid : String) (startTs rt : Int) :
    ∀ (events : List (Int × WsEvent)) (tS : Option Int),
      (awaitLoop pid startTs rt events tS = some (.error .timeout)) ↔
        firstOutcome pid startTs rt events = some true := by
  intro events
  induction events with
  | nil => intro tS; simp [awaitLoop, firstOutcome]
  | cons te rest ih =>
      intro tS
      obtain ⟨t, ev⟩ := te
      by_cases hto : rt < t - startTs
      · simp [awaitLoop, firstOutcome, hto]
      · simp only [awaitLoop, firstOutcome, if_neg hto]
        cases ev with
        | binaryFrame => simpa [isTerminalEv] using ih tS
        | invalidJson => simpa [isTerminalEv] using ih tS
        | wsTimeout => simpa [isTerminalEv] using ih tS
        | other => simpa [isTerminalEv] using ih tS
        | executing p node =>
            dsimp only
            by_cases hp : p ≠ pid
            · rw [if_pos hp]
              have hnt : isTerminalEv pid (WsEvent.executing p node) = false := by
                simp [isTerminalEv, hp]
              simp [hnt, ih tS]
            · rw [if_neg hp]
              have hpp : p = pid := not_not.mp hp
              cases node with
              | none =>
                  have hterm : isTerminalEv pid (WsEvent.executing p none) = true := by
                    simp [isTerminalEv, hpp]
                  simp [hterm]
              | some n =>
                  have hnt : isTerminalEv pid (WsEvent.executing p (some n)) = false := by
                    simp [isTerminalEv]
                  simp [hnt, ih]
        | execError q m =>
            have hterm : isTerminalEv pid (WsEvent.execError q m) = true := rfl
            simp [hterm]

/-- C8 counterexample: `start_ts` is recorded before connecting and
submitting, so the timeout is not measured from submission.  Submitted at
`t_queued = 10` with run timeout 20, a completion event processed at
t = 25 — only 15 ≤ 20 after submission — still yields a Timeout failure,
because 25 − start_ts = 25 > 20. -/
theorem claim_C8_counterexample :
    submitAndWait "p" 0 10 20 [(25, WsEvent.executing "p" none)] 30 =
      some (.error .timeout) ∧ (25 : Int) - 10 ≤ 20 :=
  ⟨by decide, by decide⟩

/-- C8 (amended): `submitAndTrack` fails with Timeout exactly when the
loop reaches an iteration whose wall-clock check exceeds the run timeout
measured from the start of the call (`start_ts`, recorded before
connecting and submitting, not the submission time) before any terminal
event is processed — where the terminal events are a completion event for
the tracked execution id or an `execution_error` event of any id. -/
theorem claim_C8_timeout (pid : String) (startTs tQueued rt now : Int)
    (events : List (Int × WsEvent)) :
    (submitAndWait pid startTs tQueued rt events now =
        some (.error .timeout)) ↔
      firstOutcome pid startTs rt events = some true := by
  rw [← awaitLoop_timeout_iff pid startTs rt events none]
  unfold submitAndWait
  cases awaitLoop pid startTs rt events none with
  | none => simp
  | some r =>
      cases r with
      | error er => simp
      | ok res => simp

/-- C4 witness: a template with an explicit seed renders identically for
two different RNG draws. -/
theorem claim_C4_witness :
    prepare_workflow [("5", { inputs := [("text", JVal.str "")] })]
        [{ type := "prompt", node_ids := ["5"], key := "text" }] "a cat"
        [("seed", JVal.num 42)] 0 =
      prepare_workflow [("5", { inputs := [("text", JVal.str "")] })]
        [{ type := "prompt", node_ids := ["5"], key := "text" }] "a cat"
        [("seed", JVal.num 42)] 999 ∧
    (prepare_workflow [("5", { inputs := [("text", JVal.str "")] })]
        [{ type := "prompt", node_ids := ["5"], key := "text" }] "a cat"
        [("seed", JVal.num 42)] 0).2 = 0 :=
  claim_C4_render_deterministic.1 _ _ _ _ (JVal.num 42) 0 999 rfl

/-! ## Claim C3 — pruning for `input_images` rules

Supporting lemmas: association-list facts, then how each pass touches
node membership, a tracked node's looked-up value, and edge cleanliness. -/

theorem alookup_isSome_iff [DecidableEq κ] (m : List (κ × α)) (k : κ) :
    (alookup m k).isSome ↔ k ∈ m.map Prod.fst := by
  induction m with
  | nil => simp [alookup]
  | cons p rest ih =>
      obtain ⟨a, b⟩ := p
      by_cases ha : a = k
      · subst ha
        simp [alookup]
      · simp [alookup, ha, ih, Ne.symm ha]

theorem alookup_eq_none_iff [DecidableEq κ] (m : List (κ × α)) (k : κ) :
    alookup m k = none ↔ k ∉ m.map Prod.fst := by
  rw [← alookup_isSome_iff]
  cases alookup m k <;> simp

theorem keys_aset_of_lookup [DecidableEq κ] {m : List (κ × α)} {k : κ} {w : α}
    (h : alookup m k = some w) (v : α) :
    (aset m k v).map Prod.fst = m.map Prod.fst := by
  induction m with
  | nil => simp [alookup] at h
  | cons p rest ih =>
      obtain ⟨a, b⟩ := p
      by_cases ha : a = k
      · subst ha
        simp [aset]
      · simp only [alookup, if_neg ha] at h
        simp [aset, ha, ih h]

theorem alookup_filter_key_none [DecidableEq κ] (m : List (κ × α))
    (q : κ × α → Bool) (k : κ) (hq : ∀ v, q (k, v) = false) :
    alookup (m.filter q) k = none := by
  induction m with
  | nil => simp [alookup]
  | cons p rest ih =>
      obtain ⟨a, b⟩ := p
      by_cases ha : a = k
      · subst ha
        simp [List.filter, hq b, ih]
      · by_cases hqa : q (a, b)
        · simp [List.filter, hqa, alookup, ha, ih]
        · simp only [Bool.not_eq_true] at hqa
          simp [List.filter, hqa, ih]

theorem alookup_filter_key_eq [DecidableEq κ] (m : List (κ × α))
    (q : κ × α → Bool) (k : κ) (hq : ∀ v, q (k, v) = true) :
    alookup (m.filter q) k = alookup m k := by
  induction m with
  | nil => simp [alookup]
  | cons p rest ih =>
      obtain ⟨a, b⟩ := p
      by_cases ha : a = k
      · subst ha
        simp [List.filter, hq b, alookup]
      · by_cases hqa : q (a, b)
        · simp [List.filter, hqa, alookup, ha, ih]
        · simp only [Bool.not_eq_true] at hqa
          simp [List.filter, hqa, alookup, ha, ih]

theorem alookup_map_value [DecidableEq κ] (m : List (κ × α)) (f : α → β)
    (k : κ) :
    alookup (m.map (fun p => (p.1, f p.2))) k = (alookup m k).map f := by
  induction m with
  | nil => simp [alookup]
  | cons p rest ih =>
      obtain ⟨a, b⟩ := p
      by_cases ha : a = k
      · subst ha
        simp [alookup]
      · simp [alookup, ha, ih]

theorem isEdgeTo_nil (v : JVal) : isEdgeTo [] v = false := by
  cases v with
  | arr l => cases l with
    | nil => rfl
    | cons x xs => cases x <;> rfl
  | null => rfl
  | str s => rfl
  | num n => rfl
  | bool b => rfl

theorem alookup_filter_keep [DecidableEq κ] {m : List (κ × α)}
    (p : κ × α → Bool) {k : κ} {v : α} (h : alookup m k = some v)
    (hp : p (k, v) = true) : alookup (m.filter p) k = some v := by
  induction m with
  | nil => simp [alookup] at h
  | cons q rest ih =>
      obtain ⟨a, b⟩ := q
      by_cases ha : a = k
      · subst ha
        simp only [alookup, eq_self_iff_true, if_true] at h
        injection h with h
        subst h
        simp [List.filter, hp, alookup]
      · simp only [alookup, if_neg ha] at h
        by_cases hq : p (a, b)
        · simp [List.filter, hq, alookup, ha, ih h]
        · simp only [Bool.not_eq_true] at hq
          simp [List.filter, hq, ih h]

/-! ### `gSet` / `setInputs` / `assignSeq` / `unlinkRemove` facts -/

theorem gSet_keys {g g' : Graph} {nid key : String} {v : JVal}
    (h : gSet g nid key v = some g') :
    g'.map Prod.fst = g.map Prod.fst := by
  unfold gSet at h
  split at h
  · simp at h
  · rename_i node hl
    injection h with h
    subst h
    exact keys_aset_of_lookup hl _

theorem gSet_lookup_self {g g' : Graph} {nid key : String} {v : JVal}
    (h : gSet g nid key v = some g') :
    ∃ node, alookup g nid = some node ∧
      alookup g' nid = some { node with inputs := aset node.inputs key v } := by
  unfold gSet at h
  split at h
  · simp at h
  · rename_i node hl
    injection h with h
    subst h
    exact ⟨node, hl, alookup_aset_self _ _ _⟩

theorem gSet_lookup_ne {g g' : Graph} {nid key : String} {v : JVal}
    (h : gSet g nid key v = some g') (nid' : String) (hne : nid' ≠ nid) :
    alookup g' nid' = alookup g nid' := by
  unfold gSet at h
  split at h
  · simp at h
  · rename_i node hl
    injection h with h
    subst h
    exact alookup_aset_ne _ _ _ _ hne

theorem gSet_isSome {g g' : Graph} {nid key : String} {v : JVal}
    (h : gSet g nid key v = some g') :
    (alookup g nid).isSome := by
  unfold gSet at h
  split at h
  · simp at h
  · rename_i node hl
    simp [hl]

theorem gSetD_keys (g : Graph) (nid key : String) (v : JVal) :
    (gSetD g nid key v).map Prod.fst = g.map Prod.fst := by
  unfold gSetD
  cases hset : gSet g nid key v with
  | none => rfl
  | some g2 => simpa using gSet_keys hset

theorem gSetD_lookup_ne (g : Graph) (nid key : String) (v : JVal)
    (nid' : String) (hne : nid' ≠ nid) :
    alookup (gSetD g nid key v) nid' = alookup g nid' := by
  unfold gSetD
  cases hset : gSet g nid key v with
  | none => rfl
  | some g2 => simpa using gSet_lookup_ne hset nid' hne

theorem setInputs_keys :
    ∀ (ids : List String) (g g' : Graph) (key : String) (v : JVal),
      setInputs g ids key v = some g' →
      g'.map Prod.fst = g.map Prod.fst := by
  intro ids
  induction ids with
  | nil =>
      intro g g' key v h
      injection h with h
      subst h
      rfl
  | cons nid rest ih =>
      intro g g' key v h
      simp only [setInputs] at h
      cases hset : gSet g nid key v with
      | none => rw [hset] at h; simp at h
      | some g1 =>
          rw [hset] at h
          exact (ih g1 g' key v h).trans (gSet_keys hset)

theorem setInputs_lookup_not_mem :
    ∀ (ids : List String) (g g' : Graph) (key : String) (v : JVal),
      setInputs g ids key v = some g' →
      ∀ nid, nid ∉ ids → alookup g' nid = alookup g nid := by
  intro ids
  induction ids with
  | nil =>
      intro g g' key v h nid hn
      injection h with h
      subst h
      rfl
  | cons nid0 rest ih =>
      intro g g' key v h nid hn
      simp only [setInputs] at h
      cases hset : gSet g nid0 key v with
      | none => rw [hset] at h; simp at h
      | some g1 =>
          rw [hset] at h
          have hne : nid ≠ nid0 := fun he => hn (he ▸ List.mem_cons_self _ _)
          have hnr : nid ∉ rest := fun hm => hn (List.mem_cons_of_mem _ hm)
          exact (ih g1 g' key v h nid hnr).trans (gSet_lookup_ne hset nid hne)

theorem gSet_preserves_clean {rem : List String} {g g' : Graph}
    {nid key : String} {v : JVal} (h : gSet g nid key v = some g')
    (hg : ∀ p ∈ g, ∀ kv ∈ p.2.inputs, isEdgeTo rem kv.2 = false)
    (hv : isEdgeTo rem v = false) :
    ∀ p ∈ g', ∀ kv ∈ p.2.inputs, isEdgeTo rem kv.2 = false := by
  unfold gSet at h
  split at h
  · simp at h
  · rename_i node hl
    injection h with h
    subst h
    intro p hp kv hkv
    rcases mem_aset hp with hp | hp
    · subst hp
      simp only at hkv
      rcases mem_aset hkv with hkv | hkv
      · subst hkv
        exact hv
      · exact hg _ (alookup_mem hl) _ hkv
    · exact hg _ hp _ hkv

theorem setInputs_preserves_clean {rem : List String} :
    ∀ (ids : List String) (g g' : Graph) (key : String) (v : JVal),
      setInputs g ids key v = some g' →
      (∀ p ∈ g, ∀ kv ∈ p.2.inputs, isEdgeTo rem kv.2 = false) →
      isEdgeTo rem v = false →
      ∀ p ∈ g', ∀ kv ∈ p.2.inputs, isEdgeTo rem kv.2 = false := by
  intro ids
  induction ids with
  | nil =>
      intro g g' key v h hg hv
      injection h with h
      subst h
      exact hg
  | cons nid0 rest ih =>
      intro g g' key v h hg hv
      simp only [setInputs] at h
      cases hset : gSet g nid0 key v with
      | none => rw [hset] at h; simp at h
      | some g1 =>
          rw [hset] at h
          exact ih g1 g' key v h (gSet_preserves_clean hset hg hv) hv

theorem assignSeq_keys (key : String) :
    ∀ (pairs : List (JVal × String)) (g : Graph),
      (assignSeq g key pairs).map Prod.fst = g.map Prod.fst := by
  intro pairs
  induction pairs with
  | nil => intro g; rfl
  | cons pr rest ih =>
      intro g
      obtain ⟨v, nid⟩ := pr
      exact (ih (gSetD g nid key v)).trans (gSetD_keys g nid key v)

theorem assignSeq_lookup_not_mem (key : String) :
    ∀ (pairs : List (JVal × String)) (g : Graph) (nid : String),
      nid ∉ pairs.map Prod.snd →
      alookup (assignSeq g key pairs) nid = alookup g nid := by
  intro pairs
  induction pairs with
  | nil => intro g nid hn; rfl
  | cons pr rest ih =>
      intro g nid hn
      obtain ⟨v, nid0⟩ := pr
      have hne : nid ≠ nid0 := fun he => hn (by simp [he])
      have hnr : nid ∉ rest.map Prod.snd := fun hm => hn (by simp; right; simpa using hm)
      exact (ih (gSetD g nid0 key v) nid hnr).trans (gSetD_lookup_ne g nid0 key v nid hne)

theorem assignSeq_getInput (key : String) :
    ∀ (vs : List JVal) (ids : List String) (g : Graph), ids.Nodup →
      ∀ (i : Nat) (hi : i < vs.length) (hik : i < ids.length),
        (alookup g (ids.get ⟨i, hik⟩)).isSome →
        getInputVal (assignSeq g key (vs.zip ids)) (ids.get ⟨i, hik⟩) key =
          some (vs.get ⟨i, hi⟩) := by
  intro vs
  induction vs with
  | nil =>
      intro ids g hnd i hi hik hsome
      simp at hi
  | cons v vs ih =>
      intro ids g hnd i hi hik hsome
      cases ids with
      | nil => simp at hik
      | cons nid0 ids' =>
          have hzip : (v :: vs).zip (nid0 :: ids') = (v, nid0) :: vs.zip ids' := rfl
          have hnd' := List.nodup_cons.mp hnd
          cases i with
          | zero =>
              have hn0 : nid0 ∉ (vs.zip ids').map Prod.snd := by
                intro hmem
                rcases List.mem_map.mp hmem with ⟨pr, hpr, hsnd⟩
                exact hnd'.1 (hsnd ▸ (List.of_mem_zip hpr).2)
              rw [hzip]
              show getInputVal (assignSeq (gSetD g nid0 key v) key (vs.zip ids'))
                nid0 key = some v
              unfold getInputVal
              rw [assignSeq_lookup_not_mem key _ _ _ hn0]
              unfold gSetD
              cases hset : gSet g nid0 key v with
              | none =>
                  exfalso
                  unfold gSet at hset
                  split at hset
                  · rename_i hl
                    simp only [List.get] at hsome
                    rw [hl] at hsome
                    simp at hsome
                  · simp at hset
              | some g1 =>
                  obtain ⟨node, hnode, hlook⟩ := gSet_lookup_self hset
                  simp [hlook, alookup_aset_self]
          | succ j =>
              have hik' : j < ids'.length := by simpa using hik
              have hi' : j < vs.length := by simpa using hi
              have hget : (nid0 :: ids').get ⟨j + 1, hik⟩ = ids'.get ⟨j, hik'⟩ := rfl
              have hvget : (v :: vs).get ⟨j + 1, hi⟩ = vs.get ⟨j, hi'⟩ := rfl
              have hne : ids'.get ⟨j, hik'⟩ ≠ nid0 :=
                fun he => hnd'.1 (he ▸ List.get_mem ids' j hik')
              rw [hzip, hget, hvget]
              have hsome' : (alookup (gSetD g nid0 key v) (ids'.get ⟨j, hik'⟩)).isSome := by
                rw [gSetD_lookup_ne g nid0 key v _ hne]
                rw [hget] at hsome
                exact hsome
              exact ih ids' (gSetD g nid0 key v) hnd'.2 j hi' hik' hsome'

theorem cleanNode_nil (node : Node) : cleanNode [] node = node := by
  unfold cleanNode
  rw [show (fun kv : String × JVal => !isEdgeTo [] kv.2) =
      (fun kv => true) from funext fun kv => by rw [isEdgeTo_nil]; rfl]
  rw [List.filter_true]

theorem unlink_lookup_mem (g : Graph) (ids : List String) (nid : String)
    (hmem : nid ∈ ids) : alookup (unlinkRemove g ids) nid = none := by
  unfold unlinkRemove
  rw [if_neg (by intro he; rw [he] at hmem; exact List.not_mem_nil nid hmem)]
  exact alookup_filter_key_none _ _ _ (fun node => by simp [hmem])

theorem unlink_lookup_not_mem (g : Graph) (ids : List String) (nid : String)
    (h : nid ∉ ids) :
    alookup (unlinkRemove g ids) nid = (alookup g nid).map (cleanNode ids) := by
  unfold unlinkRemove
  by_cases hids : ids = []
  · subst hids
    rw [if_pos rfl]
    cases hl : alookup g nid with
    | none => rfl
    | some node => simp [cleanNode_nil]
  · rw [if_neg hids]
    rw [alookup_filter_key_eq _ _ _ (fun node => by simp [h])]
    exact alookup_map_value g (cleanNode ids) nid

theorem unlink_clean (g : Graph) (ids : List String) :
    ∀ p ∈ unlinkRemove g ids, ∀ kv ∈ p.2.inputs, isEdgeTo ids kv.2 = false := by
  intro p hp kv hkv
  unfold unlinkRemove at hp
  by_cases hids : ids = []
  · subst hids
    exact isEdgeTo_nil _
  · rw [if_neg hids] at hp
    have hp2 := List.mem_of_mem_filter hp
    rcases List.mem_map.mp hp2 with ⟨q, hq, hfq⟩
    rw [← hfq] at hkv
    simp only [cleanNode] at hkv
    have := List.of_mem_filter hkv
    simpa using this

/-! ### How each pass touches the graph -/

theorem textParamKey_II {rule : NodeRule} (h : ruleType rule = "input_images") :
    textParamKey rule = none := by
  unfold textParamKey
  rw [h]
  rw [if_neg (by decide), if_neg (by decide)]

theorem applyRuleText_skip_II {rule : NodeRule}
    (h : ruleType rule = "input_images") (prompt : String) (eff : Params)
    (g : Graph) : applyRuleText prompt eff g rule = some g := by
  unfold applyRuleText
  rw [h]
  rw [if_neg (by decide), if_neg (by decide), if_neg (by decide)]
  rw [textParamKey_II h]
  rfl

theorem applyRuleImage_skip {rule : NodeRule}
    (h : ruleType rule ≠ "input_image") (eff : Params) (g : Graph) :
    applyRuleImage eff g rule = some g := by
  unfold applyRuleImage
  rw [if_neg h]

theorem applyRuleImages_skip {rule : NodeRule}
    (h : ruleType rule ≠ "input_images") (eff : Params) (g : Graph) :
    applyRuleImages eff g rule = g := by
  unfold applyRuleImages
  rw [if_pos h]

theorem applyRuleScalar_skip_II {rule : NodeRule}
    (h : ruleType rule = "input_images") (eff : Params) (g : Graph) :
    applyRuleScalar eff g rule = some g := by
  unfold applyRuleScalar
  rw [h]
  rw [if_pos (by decide)]

theorem applyRuleText_cases {prompt : String} {eff : Params} {g g' : Graph}
    {rule : NodeRule} (h : applyRuleText prompt eff g rule = some g') :
    g' = g ∨ ∃ v, setInputs g rule.node_ids rule.key v = some g' := by
  unfold applyRuleText at h
  split at h
  · exact Or.inl (Option.some.inj h).symm
  · split at h
    · exact Or.inr ⟨_, h⟩
    · split at h
      · split at h
        · exact Or.inr ⟨_, h⟩
        · exact Or.inl (Option.some.inj h).symm
      · unfold writeTextParam at h
        split at h
        · split at h
          · exact Or.inl (Option.some.inj h).symm
          · split at h
            · exact Or.inr ⟨_, h⟩
            · exact Or.inl (Option.some.inj h).symm
        · exact Or.inl (Option.some.inj h).symm

theorem applyRuleImage_cases {eff : Params} {g g' : Graph} {rule : NodeRule}
    (h : applyRuleImage eff g rule = some g') :
    g' = g ∨ ∃ v, setInputs g rule.node_ids rule.key v = some g' := by
  unfold applyRuleImage at h
  split at h
  · split at h
    · exact Or.inr ⟨_, h⟩
    · exact Or.inl (Option.some.inj h).symm
  · exact Or.inl (Option.some.inj h).symm

theorem applyRuleScalar_cases {eff : Params} {g g' : Graph} {rule : NodeRule}
    (h : applyRuleScalar eff g rule = some g') :
    g' = g ∨ ∃ v, pGet eff (ruleType rule) = some v ∧
      setInputs g rule.node_ids rule.key v = some g' := by
  unfold applyRuleScalar at h
  split at h
  · exact Or.inl (Option.some.inj h).symm
  · split at h
    · rename_i v hv
      exact Or.inr ⟨v, hv, h⟩
    · exact Or.inl (Option.some.inj h).symm

theorem pGet_eq_some {m : Params} {k : String} {v : JVal}
    (h : pGet m k = some v) : alookup m k = some v := by
  unfold pGet at h
  cases hl : alookup m k with
  | none => rw [hl] at h; simp at h
  | some w =>
      rw [hl] at h
      cases w with
      | null => simp at h
      | str s => exact h
      | num n => exact h
      | bool b => exact h
      | arr l => exact h

theorem pGet_mem {m : Params} {k : String} {v : JVal}
    (h : pGet m k = some v) : (k, v) ∈ m :=
  alookup_mem (pGet_eq_some h)

theorem passTextLike_keys (prompt : String) (eff : Params) :
    ∀ (rules : List NodeRule) (g g' : Graph),
      passTextLike prompt eff g rules = some g' →
      g'.map Prod.fst = g.map Prod.fst := by
  intro rules
  induction rules with
  | nil =>
      intro g g' h
      injection h with h
      subst h
      rfl
  | cons rule rest ih =>
      intro g g' h
      simp only [passTextLike] at h
      cases happ : applyRuleText prompt eff g rule with
      | none => rw [happ] at h; simp at h
      | some g1 =>
          rw [happ] at h
          have hk : g1.map Prod.fst = g.map Prod.fst := by
            rcases applyRuleText_cases happ with he | ⟨v, hset⟩
            · rw [he]
            · exact setInputs_keys _ _ _ _ _ hset
          exact (ih g1 g' h).trans hk

theorem passInputImage_keys (eff : Params) :
    ∀ (rules : List NodeRule) (g g' : Graph),
      passInputImage eff g rules = some g' →
      g'.map Prod.fst = g.map Prod.fst := by
  intro rules
  induction rules with
  | nil =>
      intro g g' h
      injection h with h
      subst h
      rfl
  | cons rule rest ih =>
      intro g g' h
      simp only [passInputImage] at h
      cases happ : applyRuleImage eff g rule with
      | none => rw [happ] at h; simp at h
      | some g1 =>
          rw [happ] at h
          have hk : g1.map Prod.fst = g.map Prod.fst := by
            rcases applyRuleImage_cases happ with he | ⟨v, hset⟩
            · rw [he]
            · exact setInputs_keys _ _ _ _ _ hset
          exact (ih g1 g' h).trans hk

theorem passScalar_keys (eff : Params) :
    ∀ (rules : List NodeRule) (g g' : Graph),
      passScalar eff g rules = some g' →
      g'.map Prod.fst = g.map Prod.fst := by
  intro rules
  induction rules with
  | nil =>
      intro g g' h
      injection h with h
      subst h
      rfl
  | cons rule rest ih =>
      intro g g' h
      simp only [passScalar] at h
      cases happ : applyRuleScalar eff g rule with
      | none => rw [happ] at h; simp at h
      | some g1 =>
          rw [happ] at h
          have hk : g1.map Prod.fst = g.map Prod.fst := by
            rcases applyRuleScalar_cases happ with he | ⟨v, hv, hset⟩
            · rw [he]
            · exact setInputs_keys _ _ _ _ _ hset
          exact (ih g1 g' h).trans hk

theorem passTextLike_lookup (prompt : String) (eff : Params) :
    ∀ (rules : List NodeRule) (g g' : Graph) (nid : String),
      passTextLike prompt eff g rules = some g' →
      (∀ rule ∈ rules, ruleType rule = "input_images" ∨ nid ∉ rule.node_ids) →
      alookup g' nid = alookup g nid := by
  intro rules
  induction rules with
  | nil =>
      intro g g' nid h hskip
      injection h with h
      subst h
      rfl
  | cons rule rest ih =>
      intro g g' nid h hskip
      simp only [passTextLike] at h
      cases happ : applyRuleText prompt eff g rule with
      | none => rw [happ] at h; simp at h
      | some g1 =>
          rw [happ] at h
          have hstep : alookup g1 nid = alookup g nid := by
            rcases hskip rule (List.mem_cons_self _ _) with hII | hnin
            · rw [applyRuleText_skip_II hII prompt eff g] at happ
              injection happ with happ
              rw [← happ]
            · rcases applyRuleText_cases happ with he | ⟨v, hset⟩
              · rw [he]
              · exact setInputs_lookup_not_mem _ _ _ _ _ hset nid hnin
          exact (ih g1 g' nid h
            (fun ru hru => hskip ru (List.mem_cons_of_mem _ hru))).trans hstep

theorem passInputImage_lookup (eff : Params) :
    ∀ (rules : List NodeRule) (g g' : Graph) (nid : String),
      passInputImage eff g rules = some g' →
      (∀ rule ∈ rules, ruleType rule = "input_images" ∨ nid ∉ rule.node_ids) →
      alookup g' nid = alookup g nid := by
  intro rules
  induction rules with
  | nil =>
      intro g g' nid h hskip
      injection h with h
      subst h
      rfl
  | cons rule rest ih =>
      intro g g' nid h hskip
      simp only [passInputImage] at h
      cases happ : applyRuleImage eff g rule with
      | none => rw [happ] at h; simp at h
      | some g1 =>
          rw [happ] at h
          have hstep : alookup g1 nid = alookup g nid := by
            rcases hskip rule (List.mem_cons_self _ _) with hII | hnin
            · rw [applyRuleImage_skip (by rw [hII]; decide) eff g] at happ
              injection happ with happ
              rw [← happ]
            · rcases applyRuleImage_cases happ with he | ⟨v, hset⟩
              · rw [he]
              · exact setInputs_lookup_not_mem _ _ _ _ _ hset nid hnin
          exact (ih g1 g' nid h
            (fun ru hru => hskip ru (List.mem_cons_of_mem _ hru))).trans hstep

theorem passScalar_lookup (eff : Params) :
    ∀ (rules : List NodeRule) (g g' : Graph) (nid : String),
      passScalar eff g rules = some g' →
      (∀ rule ∈ rules, ruleType rule = "input_images" ∨ nid ∉ rule.node_ids) →
      alookup g' nid = alookup g nid := by
  intro rules
  induction rules with
  | nil =>
      intro g g' nid h hskip
      injection h with h
      subst h
      rfl
  | cons rule rest ih =>
      intro g g' nid h hskip
      simp only [passScalar] at h
      cases happ : applyRuleScalar eff g rule with
      | none => rw [happ] at h; simp at h
      | some g1 =>
          rw [happ] at h
          have hstep : alookup g1 nid = alookup g nid := by
            rcases hskip rule (List.mem_cons_self _ _) with hII | hnin
            · rw [applyRuleScalar_skip_II hII eff g] at happ
              injection happ with happ
              rw [← happ]
            · rcases applyRuleScalar_cases happ with he | ⟨v, hv, hset⟩
              · rw [he]
              · exact setInputs_lookup_not_mem _ _ _ _ _ hset nid hnin
          exact (ih g1 g' nid h
            (fun ru hru => hskip ru (List.mem_cons_of_mem _ hru))).trans hstep

theorem passScalar_clean (eff : Params) (rem : List String)
    (heff : ∀ kv ∈ eff, isEdgeTo rem kv.2 = false) :
    ∀ (rules : List NodeRule) (g g' : Graph),
      passScalar eff g rules = some g' →
      (∀ p ∈ g, ∀ kv ∈ p.2.inputs, isEdgeTo rem kv.2 = false) →
      ∀ p ∈ g', ∀ kv ∈ p.2.inputs, isEdgeTo rem kv.2 = false := by
  intro rules
  induction rules with
  | nil =>
      intro g g' h hg
      injection h with h
      subst h
      exact hg
  | cons rule rest ih =>
      intro g g' h hg
      simp only [passScalar] at h
      cases happ : applyRuleScalar eff g rule with
      | none => rw [happ] at h; simp at h
      | some g1 =>
          rw [happ] at h
          have hg1 : ∀ p ∈ g1, ∀ kv ∈ p.2.inputs, isEdgeTo rem kv.2 = false := by
            rcases applyRuleScalar_cases happ with he | ⟨v, hv, hset⟩
            · rw [he]; exact hg
            · exact setInputs_preserves_clean _ _ _ _ _ hset hg
                (heff _ (pGet_mem hv))
          exact ih g1 g' h hg1

theorem passInputImages_no_II (eff : Params) :
    ∀ (rules : List NodeRule) (g : Graph),
      (∀ ru ∈ rules, ruleType ru ≠ "input_images") →
      passInputImages eff g rules = g := by
  intro rules
  induction rules with
  | nil => intro g h; rfl
  | cons ru rest ih =>
      intro g h
      simp only [passInputImages]
      rw [applyRuleImages_skip (h ru (List.mem_cons_self _ _)) eff g]
      exact ih g (fun r hr => h r (List.mem_cons_of_mem _ hr))

theorem passInputImages_single (eff : Params) (r : NodeRule) :
    ∀ (rules : List NodeRule) (g : Graph),
      rules.filter (fun ru => ruleType ru == "input_images") = [r] →
      passInputImages eff g rules = applyRuleImages eff g r := by
  intro rules
  induction rules with
  | nil => intro g h; simp at h
  | cons ru rest ih =>
      intro g h
      by_cases hII : ruleType ru = "input_images"
      · rw [List.filter_cons_of_pos (by simp [hII])] at h
        injection h with h1 h2
        subst h1
        simp only [passInputImages]
        have hrest : ∀ ru' ∈ rest, ruleType ru' ≠ "input_images" := by
          intro ru' hm hcon
          have := List.filter_eq_nil_iff.mp h2 ru' hm
          simp [hcon] at this
        exact passInputImages_no_II eff rest _ hrest
      · rw [List.filter_cons_of_neg (by simp [hII])] at h
        simp only [passInputImages]
        rw [applyRuleImages_skip hII eff g]
        exact ih g h

theorem applyRuleImages_reduce {eff : Params} {r : NodeRule} {vs : List JVal}
    (hII : ruleType r = "input_images")
    (hv : pGet eff "input_images" = some (JVal.arr vs) ∧
        vs.length < r.node_ids.length ∨
      (pGet eff "input_images" = none ∨
        pGet eff "input_images" = some (JVal.arr [])) ∧ vs = [])
    (g : Graph) :
    applyRuleImages eff g r =
      unlinkRemove (assignSeq g r.key (vs.zip r.node_ids))
        (r.node_ids.drop vs.length) := by
  unfold applyRuleImages
  rw [if_neg (not_not_intro hII)]
  rcases hv with ⟨hg, hlen⟩ | ⟨hnone, hnil⟩
  · rw [hg]
    cases vs with
    | nil => rfl
    | cons v vs' =>
        have hmin : min (v :: vs').length r.node_ids.length = (v :: vs').length :=
          min_eq_left (le_of_lt hlen)
        show (if min (v :: vs').length r.node_ids.length < r.node_ids.length then
            unlinkRemove (assignSeq g r.key ((v :: vs').zip r.node_ids))
              (r.node_ids.drop (min (v :: vs').length r.node_ids.length))
          else assignSeq g r.key ((v :: vs').zip r.node_ids)) = _
        rw [hmin, if_pos hlen]
  · subst hnil
    rcases hnone with hn | hn <;> rw [hn] <;> rfl

theorem pGet_mkEff_ne (params : Params) (rv : Int) (k : String)
    (hk : k ≠ "seed") :
    pGet (mkEffParams params rv).1 k = pGet params k := by
  unfold mkEffParams
  cases hs : pGet params "seed" with
  | none =>
      show pGet (aset params "seed" (JVal.num rv)) k = pGet params k
      unfold pGet
      rw [alookup_aset_ne _ _ _ _ hk]
  | some w => rfl

theorem mkEff_mem (params : Params) (rv : Int) :
    ∀ kv ∈ (mkEffParams params rv).1,
      kv ∈ params ∨ kv = ("seed", JVal.num rv) := by
  unfold mkEffParams
  cases hs : pGet params "seed" with
  | none =>
      intro kv hkv
      rcases mem_aset hkv with h | h
      · exact Or.inr h
      · exact Or.inl h
  | some w =>
      intro kv hkv
      exact Or.inl hkv

theorem get_mem_take {l : List α} {i m : Nat} (hik : i < l.length)
    (him : i < m) : l.get ⟨i, hik⟩ ∈ l.take m := by
  have h1 : i < (l.take m).length := by
    simp [List.length_take]
    omega
  rw [List.get_take l hik him]
  exact List.get_mem _ _ _

/-- C3: over a well-formed configuration — the `input_images` rule `r` is
the only one of its kind, its declared node ids are distinct, present in
the template, and not targeted by any other rule, and no supplied
parameter or filename value is itself an edge into the pruned ids — a
successful render with `m < k` supplied filenames assigns `filename[i]`
to target node `i` for `i < m`, keeps exactly those `m` target nodes,
removes the other `k − m` declared ids, and leaves no input in the graph
whose edge references a removed id; with the list absent or empty, all
`k` declared ids are pruned and unlinked in the same way (`m = 0`). -/
theorem claim_C3_pruning (base : Graph) (rules : List NodeRule)
    (prompt : String) (params : Params) (rv : Int) (r : NodeRule) (g : Graph)
    (vs : List JVal)
    (hr : rules.filter (fun ru => ruleType ru == "input_images") = [r])
    (hnodup : r.node_ids.Nodup)
    (hin : ∀ nid ∈ r.node_ids, (alookup base nid).isSome)
    (hdisj : ∀ ru ∈ rules, ruleType ru ≠ "input_images" →
        ∀ nid ∈ r.node_ids, nid ∉ ru.node_ids)
    (hvals : pGet params "input_images" = some (JVal.arr vs) ∧
        vs.length < r.node_ids.length ∨
      (pGet params "input_images" = none ∨
        pGet params "input_images" = some (JVal.arr [])) ∧ vs = [])
    (hedge : ∀ kv ∈ params,
        isEdgeTo (r.node_ids.drop vs.length) kv.2 = false)
    (hvstr : ∀ v ∈ vs, isEdgeTo (r.node_ids.drop vs.length) v = false)
    (hsucc : (prepare_workflow base rules prompt params rv).1 = some g) :
    (∀ (i : Nat) (hi : i < vs.length) (hik : i < r.node_ids.length),
        getInputVal g (r.node_ids.get ⟨i, hik⟩) r.key =
          some (vs.get ⟨i, hi⟩)) ∧
    (∀ nid ∈ r.node_ids.take vs.length, (alookup g nid).isSome) ∧
    (∀ nid ∈ r.node_ids.drop vs.length, alookup g nid = none) ∧
    (∀ p ∈ g, ∀ kv ∈ p.2.inputs,
        isEdgeTo (r.node_ids.drop vs.length) kv.2 = false) := by
  have hII : ruleType r = "input_images" := by
    have hmem : r ∈ rules.filter (fun ru => ruleType ru == "input_images") := by
      rw [hr]
      exact List.mem_cons_self _ _
    have hpred := (List.mem_filter.mp hmem).2
    simpa using hpred
  have hrun : (do
      let g1 ← passTextLike prompt (mkEffParams params rv).1 base rules
      let g2 ← passInputImage (mkEffParams params rv).1 g1 rules
      let g3 := passInputImages (mkEffParams params rv).1 g2 rules
      passScalar (mkEffParams params rv).1 g3 rules) = some g := hsucc
  have heffv : pGet (mkEffParams params rv).1 "input_images" =
      pGet params "input_images" := pGet_mkEff_ne params rv _ (by decide)
  set eff := (mkEffParams params rv).1 with heffdef
  rcases Option.bind_eq_some.mp hrun with ⟨g1, h1, hrun1⟩
  rcases Option.bind_eq_some.mp hrun1 with ⟨g2, h2, hrun⟩
  clear hrun1
  have hv_eff : pGet eff "input_images" = some (JVal.arr vs) ∧
      vs.length < r.node_ids.length ∨
    (pGet eff "input_images" = none ∨
      pGet eff "input_images" = some (JVal.arr [])) ∧ vs = [] := by
    rw [heffv]
    exact hvals
  have hg3 : passInputImages eff g2 rules =
      unlinkRemove (assignSeq g2 r.key (vs.zip r.node_ids))
        (r.node_ids.drop vs.length) := by
    rw [passInputImages_single eff r rules g2 hr]
    exact applyRuleImages_reduce hII hv_eff g2
  rw [hg3] at hrun
  set pruned := r.node_ids.drop vs.length with hprdef
  set ga := assignSeq g2 r.key (vs.zip r.node_ids) with hgadef
  have hIIskip : ∀ nid ∈ r.node_ids, ∀ rule ∈ rules,
      ruleType rule = "input_images" ∨ nid ∉ rule.node_ids := by
    intro nid hnid rule hrule
    by_cases hty : ruleType rule = "input_images"
    · exact Or.inl hty
    · exact Or.inr (hdisj rule hrule hty nid hnid)
  have hk1 := passTextLike_keys prompt eff rules base g1 h1
  have hk2 := passInputImage_keys eff rules g1 g2 h2
  have hpresent2 : ∀ nid ∈ r.node_ids, (alookup g2 nid).isSome := by
    intro nid hnid
    rw [alookup_isSome_iff, hk2, hk1, ← alookup_isSome_iff]
    exact hin nid hnid
  have hdisjTD : ∀ nid ∈ r.node_ids.take vs.length, nid ∉ pruned := by
    intro nid hmem hmem'
    exact List.disjoint_take_drop hnodup (le_refl vs.length) hmem hmem'
  have heffclean : ∀ kv ∈ eff, isEdgeTo pruned kv.2 = false := by
    intro kv hkv
    rcases mkEff_mem params rv kv hkv with h | h
    · exact hedge kv h
    · rw [h]
      rfl
  have hkS := passScalar_keys eff rules _ g hrun
  refine ⟨?_, ?_, ?_, ?_⟩
  · intro i hi hik
    have hnmem : r.node_ids.get ⟨i, hik⟩ ∈ r.node_ids := List.get_mem _ _ _
    have hvalA : getInputVal ga (r.node_ids.get ⟨i, hik⟩) r.key =
        some (vs.get ⟨i, hi⟩) := by
      rw [hgadef]
      exact assignSeq_getInput r.key vs r.node_ids g2 hnodup i hi hik
        (hpresent2 _ hnmem)
    have hnotpr : r.node_ids.get ⟨i, hik⟩ ∉ pruned :=
      hdisjTD _ (get_mem_take hik hi)
    obtain ⟨node, hnodeA, hnodeV⟩ :
        ∃ node, alookup ga (r.node_ids.get ⟨i, hik⟩) = some node ∧
          alookup node.inputs r.key = some (vs.get ⟨i, hi⟩) := by
      unfold getInputVal at hvalA
      cases halo : alookup ga (r.node_ids.get ⟨i, hik⟩) with
      | none => rw [halo] at hvalA; simp at hvalA
      | some node =>
          rw [halo] at hvalA
          exact ⟨node, rfl, by simpa using hvalA⟩
    have hunl := unlink_lookup_not_mem ga pruned _ hnotpr
    rw [hnodeA] at hunl
    have hvalU : getInputVal (unlinkRemove ga pruned)
        (r.node_ids.get ⟨i, hik⟩) r.key = some (vs.get ⟨i, hi⟩) := by
      unfold getInputVal
      rw [hunl]
      show alookup (cleanNode pruned node).inputs r.key = _
      unfold cleanNode
      exact alookup_filter_keep _ hnodeV
        (by simpa using hvstr _ (List.get_mem vs i hi))
    have hlookS := passScalar_lookup eff rules _ g _ hrun (hIIskip _ hnmem)
    unfold getInputVal at hvalU ⊢
    rw [hlookS]
    exact hvalU
  · intro nid hmem
    have hnid : nid ∈ r.node_ids := List.mem_of_mem_take hmem
    have hpresa : (alookup ga nid).isSome := by
      rw [hgadef, alookup_isSome_iff, assignSeq_keys, ← alookup_isSome_iff]
      exact hpresent2 nid hnid
    have hunl := unlink_lookup_not_mem ga pruned nid (hdisjTD nid hmem)
    have hpu : (alookup (unlinkRemove ga pruned) nid).isSome := by
      rw [hunl]
      simpa using hpresa
    rw [alookup_isSome_iff, hkS, ← alookup_isSome_iff]
    exact hpu
  · intro nid hmem
    have h3 : alookup (unlinkRemove ga pruned) nid = none :=
      unlink_lookup_mem ga pruned nid hmem
    rw [alookup_eq_none_iff, hkS, ← alookup_eq_none_iff]
    exact h3
  · exact passScalar_clean eff pruned heffclean rules _ g hrun
      (unlink_clean ga pruned)

/-- Demo template for the C3 witness: three `LoadImage` nodes and a
consumer node `"20"` holding edges into `"10"` and `"12"`. -/
def demoBase : Graph :=
  [("10", { class_type := "LoadImage", inputs := [("image", JVal.str "d")] }),
   ("11", { class_type := "LoadImage", inputs := [("image", JVal.str "d")] }),
   ("12", { class_type := "LoadImage", inputs := [("image", JVal.str "d")] }),
   ("20", { class_type := "Mix", inputs :=
      [("a", JVal.arr [JVal.str "10", JVal.num 0]),
       ("b", JVal.arr [JVal.str "12", JVal.num 0])] })]

def demoRule : NodeRule :=
  { type := "input_images", node_ids := ["10", "11", "12"], key := "image" }

def demoParams : Params :=
  [("input_images", JVal.arr [JVal.str "a.png", JVal.str "b.png"]),
   ("seed", JVal.num 7)]

/-- The graph the render produces on the demo configuration: `"a.png"`
and `"b.png"` assigned, node `"12"` removed, and the edge `"20".b → "12"`
detached. -/
def demoResult : Graph :=
  [("10", { class_type := "LoadImage", inputs := [("image", JVal.str "a.png")] }),
   ("11", { class_type := "LoadImage", inputs := [("image", JVal.str "b.png")] }),
   ("20", { class_type := "Mix", inputs :=
      [("a", JVal.arr [JVal.str "10", JVal.num 0])] })]

/-- C3 witness: two filenames against three declared ids assign the first
two target nodes and prune the third together with the edge into it. -/
theorem claim_C3_witness :
    getInputVal demoResult "10" "image" = some (JVal.str "a.png") ∧
    getInputVal demoResult "11" "image" = some (JVal.str "b.png") ∧
    alookup demoResult "12" = none := by
  have h := claim_C3_pruning demoBase [demoRule] "p" demoParams 0 demoRule
      demoResult [JVal.str "a.png", JVal.str "b.png"]
      rfl (by decide) (by decide) (by decide)
      (Or.inl ⟨rfl, by decide⟩) (by decide) (by decide) rfl
  refine ⟨?_, ?_, ?_⟩
  · have h0 := h.1 0 (by decide) (by decide)
    simpa using h0
  · have h1 := h.1 1 (by decide) (by decide)
    simpa using h1
  · exact h.2.2.1 "12" (by decide)

end TeleComfy
